import Mathlib

/-!
# Verification of the VaarWeg path-finding modules

A shallow embedding of `findpath.module.js` (the generic A* search
`findPath` and its default `reconstructPath`) and of the findpath worker
module (`reconstructRenderablePath`, the plan derivation inside
`handleCalculateRoute`, and `computeDistance`), together with proofs of the
specification claims about them.

JavaScript numbers are modelled by `ℚ`, JS objects used as string-keyed
dictionaries by functions into `Option`, and the potentially diverging
`while` loops by fuel-indexed recursion returning `Option` (`none` = the
loop did not finish within the fuel).
-/

namespace VaarWeg

/-- A graph node as stored in the graph dictionary: a `name`, a coordinate
array `pos`, and a `neighbors` array of `[linkId, neighborName]` pairs. -/
structure GNode where
  name : String
  pos : List ℚ
  neighbors : List (String × String)
deriving DecidableEq, Repr

/-! ## The generic A* core (`findPath` in `findpath.module.js`)

`findPath` is parametric in the node type `V` and the key type `K`; the
caller supplies `computeKeyFn`, `computeDistanceFn`, `findNeighborsFn` and
`reconstructPathFn`.  The JS dictionaries `gScore`, `fScore` and `cameFrom`
are modelled as functions `K → Option _`. -/

/-- The caller-supplied arguments of `findPath`. -/
structure AStarArgs (V K : Type) where
  start : V
  goal : V
  key : V → K
  dist : V → V → ℚ
  nbrs : V → List V

/-- The mutable state of the `findPath` loop. -/
structure AState (V K : Type) where
  openSet : List V
  gScore : K → Option ℚ
  fScore : K → Option ℚ
  cameFrom : K → Option V

variable {V K R : Type} [DecidableEq V] [DecidableEq K]

/-- `fScore[computeKeyFn(a)]` as read by the sort comparator. -/
def fGet (A : AStarArgs V K) (f : K → Option ℚ) (v : V) : ℚ :=
  (f (A.key v)).getD 0

/-- The comparator `(a, b) => fScore[computeKeyFn(a)] - fScore[computeKeyFn(b)]`
orders the open set by ascending `fScore`. -/
def openLE (A : AStarArgs V K) (f : K → Option ℚ) (a b : V) : Prop :=
  fGet A f a ≤ fGet A f b

instance (A : AStarArgs V K) (f : K → Option ℚ) : DecidableRel (openLE A f) :=
  fun a b => inferInstanceAs (Decidable (_ ≤ _))

/-- `openSet.sort(...)`: JS `Array.prototype.sort` is a stable sort, so it is
modelled by the stable `List.insertionSort` on the comparator's order. -/
def sortOpen (A : AStarArgs V K) (f : K → Option ℚ) (l : List V) : List V :=
  List.insertionSort (openLE A f) l

/-- The writes performed by the body of the `for (const neighbor of
neighbors)` loop of `findPath` when the tentative g-score improves: record
`gScore`, `fScore` and `cameFrom` for the neighbor's key, push the neighbor
and re-sort the open set. -/
def relaxWrite (A : AStarArgs V K) (current : V) (st : AState V K)
    (neighbor : V) (tentativeGScore : ℚ) : AState V K :=
  let neighborKey := A.key neighbor
  let f' := fun k => if k = neighborKey then
      some (tentativeGScore + A.dist neighbor A.goal) else st.fScore k
  { openSet := sortOpen A f' (st.openSet ++ [neighbor])
    gScore := fun k => if k = neighborKey then some tentativeGScore else st.gScore k
    fScore := f'
    cameFrom := fun k => if k = neighborKey then some current else st.cameFrom k }

/-- The body of the `for (const neighbor of neighbors)` loop of `findPath`:
compare the tentative g-score against the known one (`?? Infinity`) and
write on strict improvement. -/
def relax (A : AStarArgs V K) (current : V) (st : AState V K) (neighbor : V) :
    AState V K :=
  let tentativeGScore :=
    (st.gScore (A.key current)).getD 0 + A.dist current neighbor
  match st.gScore (A.key neighbor) with
  | none => relaxWrite A current st neighbor tentativeGScore
  | some known =>
    if tentativeGScore < known then relaxWrite A current st neighbor tentativeGScore
    else st

/-- One full expansion of `current`: relax every neighbor in order. -/
def expand (A : AStarArgs V K) (current : V) (st : AState V K) : AState V K :=
  (A.nbrs current).foldl (relax A current) st

/-- The state after the initializers that precede the `while` loop. -/
def initState (A : AStarArgs V K) : AState V K where
  openSet := [A.start]
  gScore := fun k => if k = A.key A.start then some 0 else none
  fScore := fun k => if k = A.key A.start then some (A.dist A.start A.goal) else none
  cameFrom := fun _ => none

/-- The two kinds of value `findPath` can produce: the sentinel `false`
(`noPath`), or the return value of `reconstructPathFn` (`path`). -/
inductive FindPathResult (R : Type) where
  | noPath : FindPathResult R
  | path (r : R) : FindPathResult R
deriving DecidableEq

/-- The `while (openSet.length)` loop of `findPath`, fuel-indexed. -/
def findPathLoop (A : AStarArgs V K) (recon : (K → Option V) → V → R) :
    Nat → AState V K → Option (FindPathResult R)
  | 0, _ => none
  | fuel + 1, st =>
    match st.openSet with
    | [] => some .noPath
    | current :: rest =>
      if current = A.goal then some (.path (recon st.cameFrom current))
      else findPathLoop A recon fuel (expand A current { st with openSet := rest })

/-- `findPath(start, goal, computeKeyFn, computeDistanceFn, findNeighborsFn,
reconstructPathFn)`. -/
def findPath (A : AStarArgs V K) (recon : (K → Option V) → V → R) (fuel : Nat) :
    Option (FindPathResult R) :=
  findPathLoop A recon fuel (initState A)

/-! ## The default `reconstructPath` of `findpath.module.js`

Its loop body reads `cameFrom[computeKey(graphNode)]`, where `computeKey` is a
free identifier: the module neither defines nor imports any `computeKey`
binding, so evaluating the default reconstruction raises a `ReferenceError`. -/

/-- The backward walk of `reconstructPath` with the key function resolved to
`key`.  Returns the chain in start-to-goal order (the source builds it by
prepending); `none` when the walk does not finish within `fuel`. -/
def reconstructPathAux (key : V → K) (cameFrom : K → Option V) :
    Nat → V → Option (List V)
  | 0, _ => none
  | fuel + 1, graphNode =>
    match cameFrom (key graphNode) with
    | none => some [graphNode]
    | some prev => (reconstructPathAux key cameFrom fuel prev).map (· ++ [graphNode])

/-- A JavaScript runtime error. -/
inductive JsError where
  | unboundIdentifier (name : String)
deriving DecidableEq

/-- The identifiers bound at module scope in `findpath.module.js` (the module
has no `import` statement and defines exactly these two functions). -/
def findpathModuleIdents : List String := ["findPath", "reconstructPath"]

/-- The module-scope environment in which the body of `reconstructPath` looks
up the identifier `computeKey` at type node-to-key: `findpath.module.js`
binds no identifier named `computeKey`, so the lookup fails. -/
def findpathModuleKeyEnv (V K : Type) : String → Option (V → K) := fun _ => none

/-- `reconstructPath(cameFrom, current)` as it evaluates inside its module
scope: the loop body is entered at least once (`current` is a truthy graph
node) and evaluates the identifier `computeKey` in the environment `env`;
when the identifier is unbound this raises a `ReferenceError`. -/
def reconstructPathJS (env : String → Option (V → K)) (cameFrom : K → Option V)
    (fuel : Nat) (current : V) : Except JsError (Option (List V)) :=
  match env "computeKey" with
  | none => .error (.unboundIdentifier "computeKey")
  | some key => .ok (reconstructPathAux key cameFrom fuel current)

/-! ## The worker module (`reconstructRenderablePath`, plan, `computeDistance`) -/

/-- `computeKey(node)` of the worker module. -/
def computeKey (node : GNode) : String := node.name

/-- An entry `{graphNode, link}` of a renderable path. -/
structure RenderEntry where
  graphNode : GNode
  link : Option String
deriving DecidableEq, Repr

/-- `prevNode.neighbors.find(([_, neighborName]) =>
computeKey(graph.graph[neighborName]) === computeKey(graphNode))?.[0]` :
the link id of the first pair in `fromNode.neighbors` whose resolved
neighbor has the key of `target`. -/
def findLinkTo (graphM : String → Option GNode) (fromNode target : GNode) :
    Option String :=
  (fromNode.neighbors.find? fun p =>
    decide ((graphM p.2).map computeKey = some (computeKey target))).map (·.1)

/-- The backward walk of `reconstructRenderablePath`: prepend
`{graphNode, link}`, step to `cameFrom[computeKey(graphNode)]`, and compute
the next prepended entry's link by searching the current node's neighbor
pairs for the one that resolves to the predecessor. -/
def reconstructRenderableAux (graphM : String → Option GNode)
    (cameFrom : String → Option GNode) :
    Nat → GNode → Option String → Option (List RenderEntry)
  | 0, _, _ => none
  | fuel + 1, graphNode, link =>
    match cameFrom (computeKey graphNode) with
    | none => some [⟨graphNode, link⟩]
    | some prev =>
      (reconstructRenderableAux graphM cameFrom fuel prev
        (findLinkTo graphM graphNode prev)).map (· ++ [⟨graphNode, link⟩])

/-- `reconstructRenderablePath(graph, links, cameFrom, current)`.  The `links`
argument is unused in the source body.  The trailing `map` replaces each
entry's node by a copy whose `pos` array is reversed (`pos.toReversed()`). -/
def reconstructRenderablePath {L : Type} (graphM : String → Option GNode)
    (links : L) (cameFrom : String → Option GNode) (fuel : Nat)
    (current : GNode) : Option (List RenderEntry) :=
  (reconstructRenderableAux graphM cameFrom fuel current none).map
    (List.map fun e =>
      { e with graphNode := { e.graphNode with pos := e.graphNode.pos.reverse } })

/-- One entry of the route plan built in `handleCalculateRoute`. -/
structure PlanEntry where
  name : String
  graphNodeName : String
deriving DecidableEq, Repr

/-- `link.split("#")[0]`: the prefix of `link` before the first `#`
separator (the whole string when `link` contains no `#`). -/
def stripFragment (link : String) : String :=
  String.mk (link.toList.takeWhile (· ≠ '#'))

/-- The callback of the `path.reduce(...)` in `handleCalculateRoute`:
entries without a link are skipped; otherwise the link id is stripped of
its `#` fragment (`link.split("#")[0]`) and appended as a new plan item
unless it equals the name of the last item (`acc.slice(-1)[0]?.name`). -/
def derivePlanStep (acc : List PlanEntry) (e : RenderEntry) : List PlanEntry :=
  match e.link with
  | none => acc
  | some link =>
    let lastLinkName := acc.getLast?.map PlanEntry.name
    let linkName := stripFragment link
    if lastLinkName = some linkName then acc
    else acc ++ [⟨linkName, e.graphNode.name⟩]

/-- The `path.reduce(...)` of `handleCalculateRoute` that derives the route
plan from a renderable path. -/
def derivePlan (path : List RenderEntry) : List PlanEntry :=
  path.foldl derivePlanStep []

/-- Reference formulation of the plan derivation: keep the first entry of
each run of consecutive equal (stripped) link names; `prev` carries the name
of the most recently emitted plan item. -/
def collapseRuns (prev : Option String) : List (String × String) → List PlanEntry
  | [] => []
  | (n, gn) :: rest =>
    if prev = some n then collapseRuns prev rest
    else ⟨n, gn⟩ :: collapseRuns (some n) rest

/-- Reference formulation of the plan derivation, stated the way the spec
describes it: drop the entries that carry no link, strip each remaining
link of its `#` fragment, and collapse runs of consecutive equal link names
into a single plan item labeled with the link name and the node at which
the link was joined. -/
def planOf (path : List RenderEntry) : List PlanEntry :=
  collapseRuns none
    (path.filterMap fun e => e.link.map fun l => (stripFragment l, e.graphNode.name))

/-- The host-environment math primitives used by `computeDistance`
(`Math.sin`, `Math.cos`, `Math.atan2`, `Math.sqrt`, `Math.PI`). -/
structure MathPrims where
  sin : ℚ → ℚ
  cos : ℚ → ℚ
  atan2 : ℚ → ℚ → ℚ
  sqrt : ℚ → ℚ
  pi : ℚ

/-- `toRad` inside `computeDistance`. -/
def toRad (p : MathPrims) (d : ℚ) : ℚ := d * p.pi / 180

/-- The haversine great-circle formula that `computeDistance` applies after
resolving the coordinate order, with the Earth radius constant `R = 6371`. -/
def haversineKm (p : MathPrims) (lat1 lon1 lat2 lon2 : ℚ) : ℚ :=
  let dLat := toRad p (lat2 - lat1)
  let dLon := toRad p (lon2 - lon1)
  let a := p.sin (dLat / 2) ^ 2 +
    p.cos (toRad p lat1) * p.cos (toRad p lat2) * p.sin (dLon / 2) ^ 2
  2 * 6371 * p.atan2 (p.sqrt a) (p.sqrt (1 - a))

/-- `computeDistance(node1, node2, order = 'lonlat')`: destructure both `pos`
arrays, assign latitudes and longitudes according to `order` (throwing on an
unrecognized order), then apply the haversine formula. -/
def computeDistance (p : MathPrims) (node1 node2 : GNode)
    (order : String := "lonlat") : Except String ℚ :=
  let a0 := node1.pos.getD 0 0
  let a1 := node1.pos.getD 1 0
  let b0 := node2.pos.getD 0 0
  let b1 := node2.pos.getD 1 0
  if order = "lonlat" then
    .ok (haversineKm p a1 a0 b1 b0)
  else if order = "latlon" then
    .ok (haversineKm p a0 a1 b0 b1)
  else
    .error "order must be 'lonlat' or 'latlon'"

/-! ## The `findPath` loop as a step relation

For the invariant claims the run is viewed as a sequence of states: each
loop-continuing iteration pops the front of the open set and, when it is
not the goal, expands it. -/

/-- One loop-continuing iteration of `findPath`. -/
def Step (A : AStarArgs V K) (st st' : AState V K) : Prop :=
  ∃ current rest, st.openSet = current :: rest ∧ current ≠ A.goal ∧
    st' = expand A current { st with openSet := rest }

/-- The states a run of `findPath` passes through. -/
def ReachableState (A : AStarArgs V K) (st : AState V K) : Prop :=
  Relation.ReflTransGen (Step A) (initState A) st

/-- The came-from chain from a node back to the start: repeatedly following
`cameFrom` at the node's key, ending at the start node. -/
inductive ChainTo (A : AStarArgs V K) (cf : K → Option V) : V → List V → Prop
  | base : ChainTo A cf A.start [A.start]
  | step {v c : V} {l : List V} : cf (A.key v) = some c → ChainTo A cf c l →
      ChainTo A cf v (v :: l)

/-- Run invariants of the `findPath` state, established at initialization
and preserved by every relaxation (for a non-negative distance function). -/
structure CoreInv (A : AStarArgs V K) (st : AState V K) : Prop where
  g_start : st.gScore (A.key A.start) = some 0
  g_nonneg : ∀ k q, st.gScore k = some q → 0 ≤ q
  cf_start : st.cameFrom (A.key A.start) = none
  cf_iff : ∀ k, (st.cameFrom k).isSome ↔ (st.gScore k).isSome ∧ k ≠ A.key A.start
  cf_g : ∀ k c, st.cameFrom k = some c → ∃ q qc, st.gScore k = some q ∧
    st.gScore (A.key c) = some qc ∧
    ∃ nb, A.key nb = k ∧ nb ∈ A.nbrs c ∧ qc + A.dist c nb ≤ q
  open_g : ∀ v ∈ st.openSet, (st.gScore (A.key v)).isSome
  open_chain : ∀ v ∈ st.openSet, ∃ l, ChainTo A st.cameFrom v l
  chains : ∀ k, (st.gScore k).isSome → ∃ v l, A.key v = k ∧ ChainTo A st.cameFrom v l

/-! ## Paths, costs and the termination measure -/

/-- An edge path through the graph: `EPath A u z p` says `p` lists the nodes
of a walk from `u` to `z` following `findNeighborsFn` edges. -/
inductive EPath (A : AStarArgs V K) : V → V → List V → Prop
  | single (v : V) : EPath A v v [v]
  | cons {u v z : V} {l : List V} : v ∈ A.nbrs u → EPath A v z l →
      EPath A u z (u :: l)

/-- The total cost of a node list: the sum of `computeDistanceFn` over its
consecutive pairs. -/
def pathCost (A : AStarArgs V K) : List V → ℚ
  | [] => 0
  | [_] => 0
  | u :: v :: l => A.dist u v + pathCost A (v :: l)

/-- The cost of a list of node pairs: the sum of `computeDistanceFn` over
the pairs. -/
def pairCost (A : AStarArgs V K) (ps : List (V × V)) : ℚ :=
  (ps.map fun pr => A.dist pr.1 pr.2).sum

/-- All lists over `s` of length at most `n`. -/
def pairsLe (s : Finset (V × V)) : Nat → Finset (List (V × V))
  | 0 => {[]}
  | n + 1 => {[]} ∪ s.biUnion fun a => (pairsLe s n).image (a :: ·)

/-- The finite set of all costs that a run over the node set `nodes` can
record as a g-score: pair-list costs with at most one pair per distinct key. -/
def costSet (A : AStarArgs V K) (nodes : Finset V) : Finset ℚ :=
  (pairsLe (nodes ×ˢ nodes) (nodes.image A.key).card).image (pairCost A)

/-- The certificate that a recorded g-score is an honest relaxation value:
a list of relaxation edges over `nodes` whose target keys are distinct,
never the start's key, end at the scored key, sum to the score, and whose
every prefix is bounded below by the g-score of its last target. -/
structure GoodPairs (A : AStarArgs V K) (nodes : Finset V) (g : K → Option ℚ)
    (ps : List (V × V)) (k : K) (q : ℚ) : Prop where
  mem : ∀ pr ∈ ps, pr.1 ∈ nodes ∧ pr.2 ∈ nodes
  base : ps = [] → k = A.key A.start
  last : ∀ pr, ps.getLast? = some pr → A.key pr.2 = k
  nodupKeys : (ps.map fun pr => A.key pr.2).Nodup
  start_not_mem : A.key A.start ∉ ps.map fun pr => A.key pr.2
  cost : pairCost A ps = q
  prefix_le : ∀ i (hi : i < ps.length), ∃ qi,
    g (A.key (ps.get ⟨i, hi⟩).2) = some qi ∧ qi ≤ pairCost A (ps.take (i + 1))

/-- The termination invariant: the open set stays inside `nodes` and every
recorded g-score carries a `GoodPairs` certificate. -/
structure TermInv (A : AStarArgs V K) (nodes : Finset V) (st : AState V K) : Prop where
  open_mem : ∀ v ∈ st.openSet, v ∈ nodes
  gp : ∀ k q, st.gScore k = some q → ∃ ps, GoodPairs A nodes st.gScore ps k q

/-- The per-key contribution to the termination measure: the number of
possible strictly smaller g-scores (all of them when no score is recorded). -/
def keyWeight (A : AStarArgs V K) (nodes : Finset V) (g : K → Option ℚ)
    (k : K) : ℕ :=
  match g k with
  | none => (costSet A nodes).card + 1
  | some q => ((costSet A nodes).filter fun c => c < q).card

/-- The termination measure of a state's g-score map. -/
def gMeasure (A : AStarArgs V K) (nodes : Finset V) (st : AState V K) : ℕ :=
  (nodes.image A.key).sum (keyWeight A nodes st.gScore)

/-- The invariant that every open-set node is reachable from the start. -/
def ReachInv (A : AStarArgs V K) (st : AState V K) : Prop :=
  ∀ v ∈ st.openSet, ∃ p, EPath A A.start v p

instance (A : AStarArgs V K) (f : K → Option ℚ) : IsTotal V (openLE A f) :=
  ⟨fun _ _ => le_total _ _⟩

instance (A : AStarArgs V K) (f : K → Option ℚ) : IsTrans V (openLE A f) :=
  ⟨fun _ _ _ hab hbc => le_trans hab hbc⟩

/-- Frontier invariants of the `findPath` state: the open set is sorted by
f-score, every g-score has a matching f-score `g + h`, and the goal sits in
the open set whenever it has a g-score. -/
structure FrontInv (A : AStarArgs V K) (st : AState V K) : Prop where
  sorted : List.Sorted (openLE A st.fScore) st.openSet
  fg : ∀ k q, st.gScore k = some q → ∃ v, A.key v = k ∧
    st.fScore k = some (q + A.dist v A.goal)
  goal_open : (st.gScore (A.key A.goal)).isSome → A.goal ∈ st.openSet

/-- The closed-node invariant: a scored node that is not in the open set
has had all its outgoing edges relaxed against the current g-scores. -/
structure ClosedInv (A : AStarArgs V K) (st : AState V K) : Prop where
  closed : ∀ v, (st.gScore (A.key v)).isSome → v ∉ st.openSet →
    ∀ u ∈ A.nbrs v, ∃ qv qu, st.gScore (A.key v) = some qv ∧
      st.gScore (A.key u) = some qu ∧ qu ≤ qv + A.dist v u

/-- The state-observing variant of the `findPath` loop: identical control
flow, but it reports the final state — `some none` on exhaustion, or
`some (some st)` for the state at which the goal is dequeued. -/
def findPathLoopSt (A : AStarArgs V K) : Nat → AState V K → Option (Option (AState V K))
  | 0, _ => none
  | fuel + 1, st =>
    match st.openSet with
    | [] => some none
    | current :: rest =>
      if current = A.goal then some (some st)
      else findPathLoopSt A fuel (expand A current { st with openSet := rest })

/-! ## Concrete instances used in counterexamples and witnesses -/

/-- A two-node graph: `a` and `b`, joined by an edge labeled `LA` in `a`'s
neighbor list and `LB` in `b`'s neighbor list. -/
def exA : GNode := ⟨"a", [0, 1], [("LA", "b")]⟩

/-- See `exA`. -/
def exB : GNode := ⟨"b", [2, 3], [("LB", "a")]⟩

/-- The graph dictionary holding `exA` and `exB`. -/
def exGraphM : String → Option GNode := fun nm =>
  if nm = "a" then some exA else if nm = "b" then some exB else none

/-- A came-from map recording that `b` was reached from `a`. -/
def exCameFrom : String → Option GNode := fun k =>
  if k = "b" then some exA else none

/-- A concrete choice of host math primitives, used to evaluate
`computeDistance` in witnesses. -/
def exPrims : MathPrims := ⟨id, id, fun a _ => a, id, 3⟩

/-- A one-node graph over `ℕ` whose start equals its goal, used to witness
claims about `findPath` runs. -/
def exNatArgs : AStarArgs ℕ ℕ := ⟨0, 0, id, fun _ _ => 0, fun _ => []⟩

/-- A two-node edgeless graph over `ℕ`: the goal `1` is unreachable from
the start `0`. -/
def exDisconnected : AStarArgs ℕ ℕ := ⟨0, 1, id, fun _ _ => 0, fun _ => []⟩

/-! ## Theorems -/

/-- Helper for the plan-derivation claims: running the `reduce` body from an
arbitrary accumulator appends the run-collapsed plan of the remaining path,
threaded with the name of the accumulator's last item. -/
theorem derivePlan_foldl_eq (path : List RenderEntry) :
    ∀ acc : List PlanEntry,
      path.foldl derivePlanStep acc =
      acc ++ collapseRuns (acc.getLast?.map PlanEntry.name)
        (path.filterMap fun e => e.link.map fun l => (stripFragment l, e.graphNode.name)) := by
  induction path with
  | nil => intro acc; simp [collapseRuns]
  | cons e rest ih =>
    intro acc
    cases he : e.link with
    | none =>
      have hs : derivePlanStep acc e = acc := by simp [derivePlanStep, he]
      simp only [List.foldl_cons, List.filterMap_cons, he, Option.map_none, hs]
      exact ih acc
    | some link =>
      simp only [List.foldl_cons, List.filterMap_cons, he, Option.map_some]
      by_cases hl : acc.getLast?.map PlanEntry.name = some (stripFragment link)
      · have hs : derivePlanStep acc e = acc := by
          simp only [derivePlanStep, he]
          exact if_pos hl
        rw [hs]
        simp only [collapseRuns]
        rw [if_pos hl]
        exact ih acc
      · have hs : derivePlanStep acc e =
            acc ++ [⟨stripFragment link, e.graphNode.name⟩] := by
          simp only [derivePlanStep, he]
          exact if_neg hl
        rw [hs]
        simp only [collapseRuns]
        rw [if_neg hl]
        rw [ih]
        simp [List.getLast?_append]

/-- Helper: `derivePlan` is exactly the run-collapsing plan derivation. -/
theorem derivePlan_eq_planOf (path : List RenderEntry) :
    derivePlan path = planOf path := by
  simpa [derivePlan, planOf] using derivePlan_foldl_eq path []

/-- C7: plan derivation drops the entries without a link and collapses
consecutive steps whose link identifiers are equal after stripping the `#`
fragment suffix into a single plan entry carrying the link's name and the
node at which the link was joined; in particular a path using link `A` for
two consecutive hops and then link `B` yields exactly two plan entries. -/
theorem derivePlan_collapses_consecutive_links :
    (∀ path : List RenderEntry, derivePlan path = planOf path) ∧
    derivePlan
        [⟨⟨"n1", [], []⟩, some "A#1"⟩, ⟨⟨"n2", [], []⟩, some "A#2"⟩,
         ⟨⟨"n3", [], []⟩, some "B"⟩, ⟨⟨"n4", [], []⟩, none⟩] =
      [⟨"A", "n1"⟩, ⟨"B", "n3"⟩] :=
  ⟨derivePlan_eq_planOf, by decide⟩

/-- C10: a renderable path all of whose entries carry no link — such as the
single-entry path produced when start equals goal — derives the empty plan. -/
theorem derivePlan_of_all_links_none (path : List RenderEntry)
    (h : ∀ e ∈ path, e.link = none) : derivePlan path = [] := by
  rw [derivePlan_eq_planOf, planOf]
  have hf : (path.filterMap fun e =>
      e.link.map fun l => (stripFragment l, e.graphNode.name)) = [] := by
    rw [List.filterMap_eq_nil_iff]
    intro e he
    rw [h e he]
    rfl
  rw [hf]
  rfl

/-- Witness for C10 at a concrete single-entry null-link path. -/
theorem derivePlan_of_all_links_none_witness :
    derivePlan [⟨⟨"n1", [], []⟩, none⟩] = [] :=
  derivePlan_of_all_links_none _ (by decide)

/-- C4: for any graph, calling `findPath` with `start = goal = s` and the
renderable reconstruction returns, on the loop's first iteration (fuel 1),
a path with exactly one entry whose node is `s` (its `pos` in render order)
and whose link is null. -/
theorem findPath_start_eq_goal (gm : String → Option GNode)
    (w : GNode → GNode → ℚ) (nbrs : GNode → List GNode) (s : GNode) :
    findPath ⟨s, s, computeKey, w, nbrs⟩
        (fun cf cur => reconstructRenderablePath gm () cf 1 cur) 1 =
      some (.path (some [⟨{ s with pos := s.pos.reverse }, none⟩])) ∧
    computeKey { s with pos := s.pos.reverse } = computeKey s := by
  constructor
  · simp [findPath, findPathLoop, initState, reconstructRenderablePath,
      reconstructRenderableAux]
  · rfl

/-- C8: `computeDistance` fails if and only if the coordinate-order argument
is neither `'lonlat'` nor `'latlon'`; for either recognized order it returns
(without raising) the haversine great-circle distance, with the coordinates
read in the corresponding order. -/
theorem computeDistance_order_spec (p : MathPrims) (n1 n2 : GNode) (order : String) :
    ((∃ e, computeDistance p n1 n2 order = .error e) ↔
      order ≠ "lonlat" ∧ order ≠ "latlon") ∧
    (order = "lonlat" → computeDistance p n1 n2 order =
      .ok (haversineKm p (n1.pos.getD 1 0) (n1.pos.getD 0 0)
        (n2.pos.getD 1 0) (n2.pos.getD 0 0))) ∧
    (order = "latlon" → computeDistance p n1 n2 order =
      .ok (haversineKm p (n1.pos.getD 0 0) (n1.pos.getD 1 0)
        (n2.pos.getD 0 0) (n2.pos.getD 1 0))) := by
  unfold computeDistance
  by_cases h1 : order = "lonlat"
  · subst h1
    simp
  · by_cases h2 : order = "latlon"
    · subst h2
      simp
    · simp [h1, h2]

/-- Witness for C8: a configuration error on the unrecognized order
`"latlng"`, and a successful haversine result for `"lonlat"`. -/
theorem computeDistance_order_spec_witness :
    (∃ e, computeDistance exPrims exA exB "latlng" = .error e) ∧
    computeDistance exPrims exA exB "lonlat" = .ok (haversineKm exPrims 1 0 3 2) := by
  constructor
  · exact (computeDistance_order_spec exPrims exA exB "latlng").1.mpr
      ⟨by decide, by decide⟩
  · exact (computeDistance_order_spec exPrims exA exB "lonlat").2.1 rfl

/-- Helper: any `path` outcome of the `findPath` loop is a value returned by
the supplied reconstruction function. -/
theorem findPathLoop_path_shape (A : AStarArgs V K) (recon : (K → Option V) → V → R) :
    ∀ (n : Nat) (st : AState V K) (r : R),
      findPathLoop A recon n st = some (.path r) → ∃ cf cur, r = recon cf cur := by
  intro n
  induction n with
  | zero => intro st r h; simp [findPathLoop] at h
  | succ n ih =>
    intro st r h
    cases hos : st.openSet with
    | nil => simp [findPathLoop, hos] at h
    | cons cur rest =>
      by_cases hg : cur = A.goal
      · refine ⟨st.cameFrom, A.goal, ?_⟩
        subst hg
        simp [findPathLoop, hos] at h
        exact h.symm
      · simp only [findPathLoop, hos, if_neg hg] at h
        exact ih _ r h

/-- C9: `findpath.module.js` binds no identifier named `computeKey`, so a
`findPath` call that uses the default reconstruction and dequeues the goal
evaluates to an unbound-identifier (`ReferenceError`) value instead of a
path; the default reconstruction can never successfully return. -/
theorem findPath_default_reconstruct_raises (A : AStarArgs V K) (fuel fuel2 : Nat)
    (r : Except JsError (Option (List V))) :
    "computeKey" ∉ findpathModuleIdents ∧
    (findPath A (fun cf cur => reconstructPathJS (findpathModuleKeyEnv V K) cf fuel2 cur)
        fuel = some (.path r) →
      r = .error (.unboundIdentifier "computeKey")) := by
  constructor
  · decide
  · intro h
    obtain ⟨cf, cur, rfl⟩ := findPathLoop_path_shape A _ fuel _ r h
    rfl

/-- Witness for C9: on a one-node graph whose goal is dequeued immediately,
`findPath` with the default reconstruction produces the unbound-identifier
error for `computeKey`. -/
theorem findPath_default_reconstruct_raises_witness :
    "computeKey" ∉ findpathModuleIdents ∧
    (Except.error (.unboundIdentifier "computeKey") :
        Except JsError (Option (List ℕ))) = .error (.unboundIdentifier "computeKey") :=
  ⟨(findPath_default_reconstruct_raises exNatArgs 1 1
      (.error (.unboundIdentifier "computeKey"))).1,
   (findPath_default_reconstruct_raises exNatArgs 1 1 _).2 rfl⟩

/-- Counterexample to C2: on the two-node came-from chain `a → b`, the
*start* entry of the reconstructed renderable path carries the link `LB`
found in `b`'s (the successor's) neighbor list — not a null link, and not
the link `LA` stored in the predecessor's neighbor list; the null link sits
on the goal entry instead. -/
theorem reconstructRenderablePath_start_link_counterexample :
    reconstructRenderablePath exGraphM () exCameFrom 5 exB =
      some [⟨⟨"a", [1, 0], [("LA", "b")]⟩, some "LB"⟩,
            ⟨⟨"b", [3, 2], [("LB", "a")]⟩, none⟩] ∧
    (reconstructRenderablePath exGraphM () exCameFrom 5 exB).map
        (fun l => l.head?.map RenderEntry.link) ≠ some (some none) := by
  constructor
  · decide
  · decide

/-- Helper for C2: when the backward walk of `reconstructRenderablePath`
terminates, its last entry is the terminal node with the initial (null)
link, each entry's successor resolves to it through the came-from map, and
each non-final entry's link is the one found in its successor's neighbor
pairs pointing back at it. -/
theorem reconstructRenderableAux_spec (graphM : String → Option GNode)
    (cameFrom : String → Option GNode) :
    ∀ (fuel : Nat) (v : GNode) (link : Option String) (l0 : List RenderEntry),
      reconstructRenderableAux graphM cameFrom fuel v link = some l0 →
      l0.getLast? = some ⟨v, link⟩ ∧
      ∀ i (e e' : RenderEntry), l0[i]? = some e → l0[i + 1]? = some e' →
        cameFrom (computeKey e'.graphNode) = some e.graphNode ∧
        e.link = findLinkTo graphM e'.graphNode e.graphNode := by
  intro fuel
  induction fuel with
  | zero => intro v link l0 h; simp [reconstructRenderableAux] at h
  | succ fuel ih =>
    intro v link l0 h
    rw [reconstructRenderableAux] at h
    cases hcf : cameFrom (computeKey v) with
    | none =>
      rw [hcf] at h
      obtain rfl : [(⟨v, link⟩ : RenderEntry)] = l0 := by
        simpa using h
      refine ⟨rfl, ?_⟩
      intro i e e' he he'
      cases i <;> simp at he'
    | some prev =>
      rw [hcf] at h
      obtain ⟨l1, hl1, rfl⟩ := Option.map_eq_some'.mp h
      obtain ⟨hlast, hpairs⟩ := ih prev (findLinkTo graphM v prev) l1 hl1
      have hne : l1 ≠ [] := by
        intro hnil
        rw [hnil] at hlast
        simp at hlast
      constructor
      · simp [List.getLast?_append]
      · intro i e e' he he'
        rcases lt_trichotomy (i + 1) l1.length with hlt | heq | hgt
        · rw [List.getElem?_append_left (by omega)] at he he'
          exact hpairs i e e' he he'
        · have hei : l1[i]? = some e := by
            rw [List.getElem?_append_left (by omega)] at he
            exact he
          have hlast' : l1[i]? = l1.getLast? := by
            rw [List.getLast?_eq_getElem? l1]
            congr 1
            omega
          have he1 : e = ⟨prev, findLinkTo graphM v prev⟩ := by
            rw [hlast', hlast] at hei
            exact (Option.some.injEq _ _ ▸ hei).symm
          have he2 : e' = ⟨v, link⟩ := by
            rw [List.getElem?_append_right (by omega)] at he'
            rw [heq] at he'
            simp at he'
            exact he'.symm
          subst he1
          subst he2
          exact ⟨hcf, rfl⟩
        · exfalso
          rw [List.getElem?_append_right (by omega)] at he'
          have hge : i + 1 - l1.length ≥ 1 := by omega
          rcases hn : i + 1 - l1.length with _ | m
          · omega
          · rw [hn] at he'
            simp at he'

/-- C2 (amended): the renderable reconstruction walks the came-from chain
backward from the terminal node and produces the path in start-to-goal
order, where each entry pairs a node (its `pos` reversed for rendering)
with a link; the link of the *goal* entry is null, and the link of every
other entry is the identifier found by searching its *successor's* stored
neighbor-link pairs for the pair whose resolved neighbor matches that
entry's node's key. -/
theorem reconstructRenderablePath_chain {L : Type} (graphM : String → Option GNode)
    (links : L) (cameFrom : String → Option GNode) (fuel : Nat) (current : GNode)
    (l : List RenderEntry)
    (h : reconstructRenderablePath graphM links cameFrom fuel current = some l) :
    ∃ l0, reconstructRenderableAux graphM cameFrom fuel current none = some l0 ∧
      l = l0.map (fun e =>
        { e with graphNode := { e.graphNode with pos := e.graphNode.pos.reverse } }) ∧
      l0.getLast? = some ⟨current, none⟩ ∧
      ∀ i (e e' : RenderEntry), l0[i]? = some e → l0[i + 1]? = some e' →
        cameFrom (computeKey e'.graphNode) = some e.graphNode ∧
        e.link = findLinkTo graphM e'.graphNode e.graphNode := by
  rw [reconstructRenderablePath] at h
  obtain ⟨l0, hl0, rfl⟩ := Option.map_eq_some'.mp h
  obtain ⟨hlast, hpairs⟩ := reconstructRenderableAux_spec graphM cameFrom fuel current none l0 hl0
  exact ⟨l0, hl0, rfl, hlast, hpairs⟩

/-- Helper: a relaxation either leaves the state unchanged or performs the
improving write of the tentative g-score. -/
theorem relax_cases (A : AStarArgs V K) (cur nb : V) (st : AState V K) :
    relax A cur st nb = st ∨
    ((∀ q, st.gScore (A.key nb) = some q →
        (st.gScore (A.key cur)).getD 0 + A.dist cur nb < q) ∧
      relax A cur st nb =
        relaxWrite A cur st nb ((st.gScore (A.key cur)).getD 0 + A.dist cur nb)) := by
  rw [relax]
  cases h : st.gScore (A.key nb) with
  | none =>
    refine Or.inr ⟨fun q hq => ?_, rfl⟩
    cases hq
  | some known =>
    by_cases hlt : (st.gScore (A.key cur)).getD 0 + A.dist cur nb < known
    · refine Or.inr ⟨fun q hq => ?_, if_pos hlt⟩
      cases hq
      exact hlt
    · exact Or.inl (if_neg hlt)

/-- Helper: the g-score map of `relaxWrite`. -/
theorem relaxWrite_gScore (A : AStarArgs V K) (cur nb : V) (st : AState V K)
    (t : ℚ) (k : K) :
    (relaxWrite A cur st nb t).gScore k =
      if k = A.key nb then some t else st.gScore k := rfl

/-- Helper: the came-from map of `relaxWrite`. -/
theorem relaxWrite_cameFrom (A : AStarArgs V K) (cur nb : V) (st : AState V K)
    (t : ℚ) (k : K) :
    (relaxWrite A cur st nb t).cameFrom k =
      if k = A.key nb then some cur else st.cameFrom k := rfl

/-- Helper: a relaxation never discards a g-score and never increases one. -/
theorem relax_gScore_le (A : AStarArgs V K) (cur nb : V) (st : AState V K)
    (k : K) (q : ℚ) (hq : st.gScore k = some q) :
    ∃ q', (relax A cur st nb).gScore k = some q' ∧ q' ≤ q := by
  rcases relax_cases A cur nb st with h | ⟨himp, h⟩
  · refine ⟨q, ?_, le_refl q⟩
    rw [h]
    exact hq
  · rw [h, relaxWrite_gScore]
    by_cases hk : k = A.key nb
    · rw [if_pos hk]
      refine ⟨_, rfl, le_of_lt (himp q ?_)⟩
      rw [← hk]
      exact hq
    · rw [if_neg hk]
      exact ⟨q, hq, le_refl q⟩

/-- Helper: `expand` never discards a g-score and never increases one. -/
theorem expand_gScore_le (A : AStarArgs V K) (cur : V) (st : AState V K)
    (k : K) (q : ℚ) (hq : st.gScore k = some q) :
    ∃ q', (expand A cur st).gScore k = some q' ∧ q' ≤ q := by
  rw [expand]
  generalize A.nbrs cur = L
  induction L generalizing st q with
  | nil => exact ⟨q, hq, le_refl q⟩
  | cons nb l ih =>
    obtain ⟨q1, hq1, h1⟩ := relax_gScore_le A cur nb st k q hq
    obtain ⟨q', hq', h'⟩ := ih (relax A cur st nb) q1 hq1
    exact ⟨q', hq', le_trans h' h1⟩

/-- Helper: a loop iteration never discards a g-score and never increases
one. -/
theorem step_gScore_le (A : AStarArgs V K) {st st' : AState V K}
    (h : Step A st st') (k : K) (q : ℚ) (hq : st.gScore k = some q) :
    ∃ q', st'.gScore k = some q' ∧ q' ≤ q := by
  obtain ⟨cur, rest, _, _, rfl⟩ := h
  exact expand_gScore_le A cur _ k q hq

/-- C5: throughout a run of `findPath`, once a key has a g-score it keeps
one, the recorded value never increases from one state to a later one, and
any change is a strict decrease (g-scores are only updated on improvement). -/
theorem gScore_monotone_nonincreasing (A : AStarArgs V K)
    (hw : ∀ u v : V, 0 ≤ A.dist u v) {s s' : AState V K}
    (hrun : ReachableState A s) (hsteps : Relation.ReflTransGen (Step A) s s')
    (k : K) (q : ℚ) (hq : s.gScore k = some q) :
    ∃ q', s'.gScore k = some q' ∧ q' ≤ q ∧ (q' ≠ q → q' < q) := by
  induction hsteps with
  | refl => exact ⟨q, hq, le_refl q, fun h => absurd rfl h⟩
  | tail hab hbc ih =>
    obtain ⟨q1, hq1, hle, _⟩ := ih
    obtain ⟨q', hq', hle'⟩ := step_gScore_le A hbc k q1 hq1
    exact ⟨q', hq', le_trans hle' hle,
      fun hne => lt_of_le_of_ne (le_trans hle' hle) hne⟩

/-- Witness for C5 on the concrete one-node run. -/
theorem gScore_monotone_nonincreasing_witness :
    ∃ q', (initState exNatArgs).gScore 0 = some q' ∧ q' ≤ 0 ∧ (q' ≠ 0 → q' < 0) :=
  gScore_monotone_nonincreasing exNatArgs (fun _ _ => le_refl 0)
    Relation.ReflTransGen.refl Relation.ReflTransGen.refl 0 0 rfl

/-- Helper: every came-from chain ends at the start node. -/
theorem chainTo_getLast (A : AStarArgs V K) (cf : K → Option V) {v : V}
    {l : List V} (h : ChainTo A cf v l) : l.getLast? = some A.start := by
  induction h with
  | base => rfl
  | step hcf hch ih =>
    rw [List.getLast?_cons]
    rw [ih]
    cases hch <;> simp_all [List.getLast?_cons]

/-- Helper: along a came-from chain the g-scores are defined and do not
exceed the g-score of the chain's head (for non-negative distances). -/
theorem chainTo_g_le (A : AStarArgs V K) (st : AState V K)
    (hw : ∀ u v : V, 0 ≤ A.dist u v) (hinv : CoreInv A st) {v : V} {l : List V}
    (h : ChainTo A st.cameFrom v l) :
    ∀ u ∈ l, ∃ qu qv, st.gScore (A.key u) = some qu ∧
      st.gScore (A.key v) = some qv ∧ qu ≤ qv := by
  induction h with
  | base =>
    intro u hu
    rw [List.mem_singleton] at hu
    subst hu
    exact ⟨0, 0, hinv.g_start, hinv.g_start, le_refl 0⟩
  | step hcf hch ih =>
    rename_i v' c l'
    obtain ⟨q, qc, hq, hqc, nb, _, _, hle⟩ := hinv.cf_g _ _ hcf
    intro u hu
    rw [List.mem_cons] at hu
    rcases hu with rfl | hu
    · exact ⟨q, q, hq, hq, le_refl q⟩
    · obtain ⟨qu, qv, hqu, hqv, hle'⟩ := ih u hu
      refine ⟨qu, q, hqu, hq, ?_⟩
      rw [hqv, Option.some.injEq] at hqc
      have hw' := hw c nb
      linarith

/-- Helper: a chain that avoids the rewritten key is a chain for the
rewritten map as well. -/
theorem chainTo_transport (A : AStarArgs V K) {cf cf' : K → Option V} {kw : K}
    (hagree : ∀ k, k ≠ kw → cf' k = cf k) {v : V} {l : List V}
    (havoid : ∀ u ∈ l, A.key u ≠ kw) (h : ChainTo A cf v l) :
    ChainTo A cf' v l := by
  induction h with
  | base => exact ChainTo.base
  | step hcf hch ih =>
    rename_i v' c l'
    refine ChainTo.step ?_ (ih fun u hu => havoid u (List.mem_cons_of_mem _ hu))
    rw [hagree _ (havoid v' (List.mem_cons_self _ _))]
    exact hcf

/-- Helper: chains survive a came-from rewrite at one key, provided every
node keyed by the rewritten key has a chain for the new map. -/
theorem chainTo_rebuild (A : AStarArgs V K) {cf cf' : K → Option V} {kw : K}
    (hagree : ∀ k, k ≠ kw → cf' k = cf k)
    (hnew : ∀ v : V, A.key v = kw → ∃ l', ChainTo A cf' v l') {v : V}
    {l : List V} (h : ChainTo A cf v l) : ∃ l', ChainTo A cf' v l' := by
  induction h with
  | base => exact ⟨[A.start], ChainTo.base⟩
  | step hcf hch ih =>
    rename_i v' c l'
    by_cases hk : A.key v' = kw
    · exact hnew v' hk
    · obtain ⟨lc, hlc⟩ := ih
      refine ⟨v' :: lc, ChainTo.step ?_ hlc⟩
      rw [hagree _ hk]
      exact hcf

/-- Helper: the open-set sort preserves membership. -/
theorem mem_sortOpen (A : AStarArgs V K) (f : K → Option ℚ) (l : List V) (v : V) :
    v ∈ sortOpen A f l ↔ v ∈ l :=
  (List.perm_insertionSort _ l).mem_iff

/-- Helper: the open set written by `relaxWrite`. -/
theorem relaxWrite_openSet (A : AStarArgs V K) (cur nb : V) (st : AState V K)
    (t : ℚ) :
    (relaxWrite A cur st nb t).openSet =
      sortOpen A (relaxWrite A cur st nb t).fScore (st.openSet ++ [nb]) := rfl

/-- Helper: one relaxation of a neighbor of `cur` preserves the run
invariants, preserves `cur`'s g-score, and keeps a chain for `cur`. -/
theorem coreInv_relax (A : AStarArgs V K) (hw : ∀ u v : V, 0 ≤ A.dist u v)
    (cur nb : V) (st : AState V K) (hinv : CoreInv A st)
    (hcurg : (st.gScore (A.key cur)).isSome)
    (hcurch : ∃ l, ChainTo A st.cameFrom cur l) (hnb : nb ∈ A.nbrs cur) :
    CoreInv A (relax A cur st nb) ∧
    ((relax A cur st nb).gScore (A.key cur)).isSome ∧
    (∃ l, ChainTo A (relax A cur st nb).cameFrom cur l) := by
  rcases relax_cases A cur nb st with h | ⟨himp, h⟩
  · rw [h]
    exact ⟨hinv, hcurg, hcurch⟩
  · obtain ⟨qc, hqc⟩ := Option.isSome_iff_exists.mp hcurg
    set t := (st.gScore (A.key cur)).getD 0 + A.dist cur nb with ht
    have htval : t = qc + A.dist cur nb := by
      rw [ht, hqc]
      rfl
    have ht0 : 0 ≤ t := by
      have h1 := hinv.g_nonneg _ _ hqc
      have h2 := hw cur nb
      rw [htval]
      linarith
    have hne_start : A.key nb ≠ A.key A.start := by
      intro he
      have h1 := himp 0 (by rw [he]; exact hinv.g_start)
      linarith
    have hne_cur : A.key cur ≠ A.key nb := by
      intro he
      have h1 := himp qc (by rw [← he]; exact hqc)
      have h2 := hw cur nb
      rw [htval] at h1
      linarith
    obtain ⟨lc, hlc⟩ := hcurch
    have havoid : ∀ u ∈ lc, A.key u ≠ A.key nb := by
      intro u hu he
      obtain ⟨qu, qv, hqu, hqv, hle⟩ := chainTo_g_le A st hw hinv hlc u hu
      have h1 := himp qu (by rw [← he]; exact hqu)
      rw [hqv, Option.some.injEq] at hqc
      have h2 := hw cur nb
      rw [htval] at h1
      linarith
    have hagree : ∀ k, k ≠ A.key nb →
        (relaxWrite A cur st nb t).cameFrom k = st.cameFrom k := by
      intro k hk
      rw [relaxWrite_cameFrom, if_neg hk]
    have hlc' : ChainTo A (relaxWrite A cur st nb t).cameFrom cur lc :=
      chainTo_transport A hagree havoid hlc
    have hnew : ∀ v : V, A.key v = A.key nb →
        ∃ l', ChainTo A (relaxWrite A cur st nb t).cameFrom v l' := by
      intro v hv
      refine ⟨v :: lc, ChainTo.step ?_ hlc'⟩
      rw [relaxWrite_cameFrom, if_pos hv]
    rw [h]
    refine ⟨⟨?_, ?_, ?_, ?_, ?_, ?_, ?_, ?_⟩, ?_, ?_⟩
    · rw [relaxWrite_gScore, if_neg (fun he => hne_start he.symm)]
      exact hinv.g_start
    · intro k q hq
      rw [relaxWrite_gScore] at hq
      by_cases hk : k = A.key nb
      · rw [if_pos hk, Option.some.injEq] at hq
        rw [← hq]
        exact ht0
      · rw [if_neg hk] at hq
        exact hinv.g_nonneg k q hq
    · rw [relaxWrite_cameFrom, if_neg (fun he => hne_start he.symm)]
      exact hinv.cf_start
    · intro k
      by_cases hk : k = A.key nb
      · subst hk
        rw [relaxWrite_cameFrom, if_pos rfl, relaxWrite_gScore, if_pos rfl]
        simp [hne_start]
      · rw [relaxWrite_cameFrom, if_neg hk, relaxWrite_gScore, if_neg hk]
        exact hinv.cf_iff k
    · intro k c hc
      rw [relaxWrite_cameFrom] at hc
      by_cases hk : k = A.key nb
      · rw [if_pos hk, Option.some.injEq] at hc
        subst hk
        subst hc
        refine ⟨t, qc, ?_, ?_, nb, rfl, hnb, ?_⟩
        · rw [relaxWrite_gScore, if_pos rfl]
        · rw [relaxWrite_gScore, if_neg hne_cur]
          exact hqc
        · rw [htval]
      · rw [if_neg hk] at hc
        obtain ⟨q, qc2, hq, hqc2, nb2, hknb2, hmem2, hle2⟩ := hinv.cf_g k c hc
        by_cases hck : A.key c = A.key nb
        · have hlt := himp qc2 (by rw [← hck]; exact hqc2)
          refine ⟨q, t, ?_, ?_, nb2, hknb2, hmem2, ?_⟩
          · rw [relaxWrite_gScore, if_neg hk]
            exact hq
          · rw [relaxWrite_gScore, if_pos hck]
          · have h2 := hw c nb2
            linarith
        · refine ⟨q, qc2, ?_, ?_, nb2, hknb2, hmem2, hle2⟩
          · rw [relaxWrite_gScore, if_neg hk]
            exact hq
          · rw [relaxWrite_gScore, if_neg hck]
            exact hqc2
    · intro v hv
      rw [relaxWrite_openSet, mem_sortOpen] at hv
      rw [relaxWrite_gScore]
      rcases List.mem_append.mp hv with h1 | h1
      · by_cases hk : A.key v = A.key nb
        · rw [if_pos hk]
          rfl
        · rw [if_neg hk]
          exact hinv.open_g v h1
      · rw [List.mem_singleton] at h1
        subst h1
        rw [if_pos rfl]
        rfl
    · intro v hv
      rw [relaxWrite_openSet, mem_sortOpen] at hv
      rcases List.mem_append.mp hv with h1 | h1
      · obtain ⟨l, hl⟩ := hinv.open_chain v h1
        exact chainTo_rebuild A hagree hnew hl
      · rw [List.mem_singleton] at h1
        subst h1
        exact hnew v rfl
    · intro k hk
      by_cases hknb : k = A.key nb
      · subst hknb
        obtain ⟨l', hl'⟩ := hnew nb rfl
        exact ⟨nb, l', rfl, hl'⟩
      · rw [relaxWrite_gScore, if_neg hknb] at hk
        obtain ⟨v, l, hkey, hch⟩ := hinv.chains k hk
        obtain ⟨l', hch'⟩ := chainTo_rebuild A hagree hnew hch
        exact ⟨v, l', hkey, hch'⟩
    · rw [relaxWrite_gScore, if_neg hne_cur, hqc]
      rfl
    · exact ⟨lc, hlc'⟩

/-- Helper: a full expansion of `cur` preserves the run invariants. -/
theorem coreInv_expand (A : AStarArgs V K) (hw : ∀ u v : V, 0 ≤ A.dist u v)
    (cur : V) (st : AState V K) (hinv : CoreInv A st)
    (hcurg : (st.gScore (A.key cur)).isSome)
    (hcurch : ∃ l, ChainTo A st.cameFrom cur l) :
    CoreInv A (expand A cur st) := by
  rw [expand]
  have main : ∀ L : List V, (∀ x ∈ L, x ∈ A.nbrs cur) → ∀ s, CoreInv A s →
      (s.gScore (A.key cur)).isSome → (∃ l, ChainTo A s.cameFrom cur l) →
      CoreInv A (L.foldl (relax A cur) s) := by
    intro L
    induction L with
    | nil =>
      intro _ s hs _ _
      exact hs
    | cons nb L ih =>
      intro hmem s hs hg hch
      obtain ⟨h1, h2, h3⟩ :=
        coreInv_relax A hw cur nb s hs hg hch (hmem nb (List.mem_cons_self _ _))
      exact ih (fun x hx => hmem x (List.mem_cons_of_mem _ hx)) _ h1 h2 h3
  exact main (A.nbrs cur) (fun x hx => hx) st hinv hcurg hcurch

/-- Helper: popping the front of the open set preserves the run invariants. -/
theorem coreInv_pop (A : AStarArgs V K) (st : AState V K) (hinv : CoreInv A st)
    (cur : V) (rest : List V) (hos : st.openSet = cur :: rest) :
    CoreInv A { st with openSet := rest } := by
  refine ⟨hinv.g_start, hinv.g_nonneg, hinv.cf_start, hinv.cf_iff, hinv.cf_g,
    ?_, ?_, hinv.chains⟩
  · intro v hv
    exact hinv.open_g v (by rw [hos]; exact List.mem_cons_of_mem _ hv)
  · intro v hv
    exact hinv.open_chain v (by rw [hos]; exact List.mem_cons_of_mem _ hv)

/-- Helper: a loop iteration preserves the run invariants. -/
theorem coreInv_step (A : AStarArgs V K) (hw : ∀ u v : V, 0 ≤ A.dist u v)
    {st st' : AState V K} (h : Step A st st') (hinv : CoreInv A st) :
    CoreInv A st' := by
  obtain ⟨cur, rest, hos, _, rfl⟩ := h
  have hcur : cur ∈ st.openSet := by
    rw [hos]
    exact List.mem_cons_self _ _
  exact coreInv_expand A hw cur _ (coreInv_pop A st hinv cur rest hos)
    (hinv.open_g cur hcur) (hinv.open_chain cur hcur)

/-- Helper: the run invariants hold at initialization. -/
theorem coreInv_init (A : AStarArgs V K) : CoreInv A (initState A) := by
  refine ⟨?_, ?_, rfl, ?_, ?_, ?_, ?_, ?_⟩
  · simp [initState]
  · intro k q hq
    simp only [initState] at hq
    split at hq
    · cases hq
      exact le_refl 0
    · cases hq
  · intro k
    constructor
    · intro h
      exact absurd h (by simp [initState])
    · rintro ⟨hg, hk⟩
      simp only [initState] at hg
      rw [if_neg hk] at hg
      cases hg
  · intro k c hc
    exact absurd hc (by simp [initState])
  · intro v hv
    simp only [initState, List.mem_singleton] at hv
    subst hv
    simp [initState]
  · intro v hv
    simp only [initState, List.mem_singleton] at hv
    subst hv
    exact ⟨[A.start], ChainTo.base⟩
  · intro k hk
    simp only [initState] at hk
    by_cases hks : k = A.key A.start
    · subst hks
      exact ⟨A.start, [A.start], rfl, ChainTo.base⟩
    · rw [if_neg hks] at hk
      cases hk

/-- Helper: the run invariants hold at every reachable state. -/
theorem coreInv_reachable (A : AStarArgs V K) (hw : ∀ u v : V, 0 ≤ A.dist u v)
    {st : AState V K} (h : ReachableState A st) : CoreInv A st := by
  induction h with
  | refl => exact coreInv_init A
  | tail hab hbc ih => exact coreInv_step A hw hbc ih

/-- C6: throughout any run of `findPath` with a non-negative distance
function and an injective key function, the came-from map has an entry
exactly for the keys that have received a g-score other than the start's
key, never for the start's key, and repeatedly following it from any scored
node terminates at the start. -/
theorem cameFrom_wellformed (A : AStarArgs V K) (hw : ∀ u v : V, 0 ≤ A.dist u v)
    (hinj : ∀ u v : V, A.key u = A.key v → u = v) {st : AState V K}
    (hst : ReachableState A st) :
    st.cameFrom (A.key A.start) = none ∧
    (∀ k, (st.cameFrom k).isSome ↔ (st.gScore k).isSome ∧ k ≠ A.key A.start) ∧
    (∀ k, (st.gScore k).isSome →
      ∃ v l, A.key v = k ∧ ChainTo A st.cameFrom v l ∧ l.getLast? = some A.start) := by
  have hinv := coreInv_reachable A hw hst
  refine ⟨hinv.cf_start, hinv.cf_iff, ?_⟩
  intro k hk
  obtain ⟨v, l, hkey, hch⟩ := hinv.chains k hk
  exact ⟨v, l, hkey, hch, chainTo_getLast A _ hch⟩

/-- Witness for C6 at the initial state of the concrete one-node run. -/
theorem cameFrom_wellformed_witness :
    (initState exNatArgs).cameFrom (exNatArgs.key exNatArgs.start) = none ∧
    (∀ k, ((initState exNatArgs).cameFrom k).isSome ↔
      ((initState exNatArgs).gScore k).isSome ∧ k ≠ exNatArgs.key exNatArgs.start) ∧
    (∀ k, ((initState exNatArgs).gScore k).isSome →
      ∃ v l, exNatArgs.key v = k ∧ ChainTo exNatArgs (initState exNatArgs).cameFrom v l ∧
        l.getLast? = some exNatArgs.start) :=
  cameFrom_wellformed exNatArgs (fun _ _ => le_refl 0) (fun _ _ h => h)
    Relation.ReflTransGen.refl

/-- Helper: membership in the bounded-length pair-list set. -/
theorem mem_pairsLe (s : Finset (V × V)) :
    ∀ (n : Nat) (l : List (V × V)),
      l ∈ pairsLe s n ↔ l.length ≤ n ∧ ∀ x ∈ l, x ∈ s := by
  intro n
  induction n with
  | zero =>
    intro l
    simp only [pairsLe, Finset.mem_singleton]
    constructor
    · rintro rfl
      simp
    · rintro ⟨hl, _⟩
      exact List.eq_nil_of_length_eq_zero (Nat.le_zero.mp hl)
  | succ n ih =>
    intro l
    simp only [pairsLe, Finset.mem_union, Finset.mem_singleton, Finset.mem_biUnion,
      Finset.mem_image]
    constructor
    · rintro (rfl | ⟨a, ha, l', hl', rfl⟩)
      · simp
      · obtain ⟨h1, h2⟩ := (ih l').mp hl'
        refine ⟨by simpa using Nat.succ_le_succ h1, ?_⟩
        intro x hx
        rcases List.mem_cons.mp hx with rfl | hx
        · exact ha
        · exact h2 x hx
    · rintro ⟨hl, hmem⟩
      cases l with
      | nil => exact Or.inl rfl
      | cons a l' =>
        refine Or.inr ⟨a, hmem a (List.mem_cons_self _ _), l', ?_, rfl⟩
        refine (ih l').mpr ⟨?_, fun x hx => hmem x (List.mem_cons_of_mem _ hx)⟩
        simpa using Nat.le_of_succ_le_succ hl

/-- Helper: appending one pair adds its distance to the pair cost. -/
theorem pairCost_append (A : AStarArgs V K) (ps : List (V × V)) (pr : V × V) :
    pairCost A (ps ++ [pr]) = pairCost A ps + A.dist pr.1 pr.2 := by
  simp [pairCost]

/-- Helper: pair costs are non-negative for a non-negative distance. -/
theorem pairCost_nonneg (A : AStarArgs V K) (hw : ∀ u v : V, 0 ≤ A.dist u v)
    (ps : List (V × V)) : 0 ≤ pairCost A ps := by
  apply List.sum_nonneg
  intro x hx
  obtain ⟨pr, _, rfl⟩ := List.mem_map.mp hx
  exact hw pr.1 pr.2

/-- Helper: a prefix never costs more than the whole pair list. -/
theorem pairCost_take_le (A : AStarArgs V K) (hw : ∀ u v : V, 0 ≤ A.dist u v)
    (ps : List (V × V)) (i : Nat) : pairCost A (ps.take i) ≤ pairCost A ps := by
  have h : pairCost A ps = pairCost A (ps.take i) + pairCost A (ps.drop i) := by
    rw [pairCost, pairCost, pairCost, ← List.sum_append, ← List.map_append,
      List.take_append_drop]
  have h0 := pairCost_nonneg A hw (ps.drop i)
  rw [h]
  linarith

/-- Helper: every certified g-score value lies in the finite cost set. -/
theorem goodPairs_cost_mem (A : AStarArgs V K) (nodes : Finset V)
    (g : K → Option ℚ) (ps : List (V × V)) (k : K) (q : ℚ)
    (h : GoodPairs A nodes g ps k q) : q ∈ costSet A nodes := by
  rw [costSet, Finset.mem_image]
  refine ⟨ps, ?_, h.cost⟩
  rw [mem_pairsLe]
  constructor
  · have hlen : ps.length = (ps.map fun pr => A.key pr.2).length :=
      (List.length_map _ _).symm
    rw [hlen]
    have hsub : (ps.map fun pr => A.key pr.2).toFinset ⊆ nodes.image A.key := by
      intro x hx
      rw [List.mem_toFinset] at hx
      obtain ⟨pr, hpr, rfl⟩ := List.mem_map.mp hx
      exact Finset.mem_image_of_mem _ (h.mem pr hpr).2
    rw [← List.toFinset_card_of_nodup h.nodupKeys]
    exact Finset.card_le_card hsub
  · intro x hx
    rw [Finset.mem_product]
    exact h.mem x hx

/-- Helper: certificates survive a pointwise decrease of the g-score map. -/
theorem goodPairs_mono (A : AStarArgs V K) (nodes : Finset V)
    {g g' : K → Option ℚ}
    (hdec : ∀ k q, g k = some q → ∃ q', g' k = some q' ∧ q' ≤ q)
    {ps : List (V × V)} {k : K} {q : ℚ} (h : GoodPairs A nodes g ps k q) :
    GoodPairs A nodes g' ps k q := by
  refine ⟨h.mem, h.base, h.last, h.nodupKeys, h.start_not_mem, h.cost, ?_⟩
  intro i hi
  obtain ⟨qi, hqi, hle⟩ := h.prefix_le i hi
  obtain ⟨qi', hqi', hle'⟩ := hdec _ _ hqi
  exact ⟨qi', hqi', le_trans hle' hle⟩

/-- Helper: one relaxation preserves the termination invariant, and either
leaves the state unchanged or strictly decreases the termination measure. -/
theorem termInv_relax (A : AStarArgs V K) (nodes : Finset V)
    (hw : ∀ u v : V, 0 ≤ A.dist u v)
    (hclosed : ∀ u ∈ nodes, ∀ v ∈ A.nbrs u, v ∈ nodes) (cur nb : V)
    (st : AState V K) (hC : CoreInv A st) (hT : TermInv A nodes st)
    (hcurmem : cur ∈ nodes) (hcurg : (st.gScore (A.key cur)).isSome)
    (hnb : nb ∈ A.nbrs cur) :
    TermInv A nodes (relax A cur st nb) ∧
    (relax A cur st nb = st ∨
      gMeasure A nodes (relax A cur st nb) < gMeasure A nodes st) := by
  rcases relax_cases A cur nb st with h | ⟨himp, h⟩
  · rw [h]
    exact ⟨hT, Or.inl rfl⟩
  · have hnbmem : nb ∈ nodes := hclosed cur hcurmem nb hnb
    obtain ⟨qc, hqc⟩ := Option.isSome_iff_exists.mp hcurg
    set t := (st.gScore (A.key cur)).getD 0 + A.dist cur nb with ht
    have htval : t = qc + A.dist cur nb := by
      rw [ht, hqc]
      rfl
    have ht0 : 0 ≤ t := by
      have h1 := hC.g_nonneg _ _ hqc
      have h2 := hw cur nb
      rw [htval]
      linarith
    have hne_start : A.key nb ≠ A.key A.start := by
      intro he
      have h1 := himp 0 (by rw [he]; exact hC.g_start)
      linarith
    have hdec : ∀ k q, st.gScore k = some q →
        ∃ q', (relaxWrite A cur st nb t).gScore k = some q' ∧ q' ≤ q := by
      intro k q hq
      have := relax_gScore_le A cur nb st k q hq
      rw [h] at this
      exact this
    obtain ⟨psc, hpsc⟩ := hT.gp _ qc hqc
    have havoidk : A.key nb ∉ psc.map fun pr => A.key pr.2 := by
      intro hmem
      obtain ⟨i, hi, hget⟩ := List.mem_iff_getElem.mp hmem
      rw [List.getElem_map] at hget
      have hi' : i < psc.length := by simpa using hi
      obtain ⟨qi, hqi, hle⟩ := hpsc.prefix_le i hi'
      have h1 := himp qi (by rw [← hget]; exact hqi)
      have h2 : pairCost A (List.take (i + 1) psc) ≤ qc := by
        rw [← hpsc.cost]
        exact pairCost_take_le A hw psc _
      have h3 := hw cur nb
      rw [htval] at h1
      linarith
    have hgood' : GoodPairs A nodes (relaxWrite A cur st nb t).gScore
        (psc ++ [(cur, nb)]) (A.key nb) t := by
      refine ⟨?_, ?_, ?_, ?_, ?_, ?_, ?_⟩
      · intro pr hpr
        rcases List.mem_append.mp hpr with h1 | h1
        · exact hpsc.mem pr h1
        · rw [List.mem_singleton] at h1
          subst h1
          exact ⟨hcurmem, hnbmem⟩
      · intro habs
        exact absurd habs (by simp)
      · intro pr hpr
        rw [List.getLast?_concat] at hpr
        cases hpr
        rfl
      · rw [List.map_append]
        rw [show (([(cur, nb)].map fun pr => A.key pr.2) = [A.key nb]) from rfl]
        rw [← List.concat_eq_append]
        exact List.Nodup.concat havoidk hpsc.nodupKeys
      · rw [List.map_append]
        intro hmem
        rcases List.mem_append.mp hmem with h1 | h1
        · exact hpsc.start_not_mem h1
        · rw [show (([(cur, nb)].map fun pr => A.key pr.2) = [A.key nb]) from rfl,
            List.mem_singleton] at h1
          exact hne_start h1.symm
      · rw [pairCost_append, hpsc.cost, htval]
      · intro i hi
        rw [List.length_append, List.length_singleton] at hi
        rcases lt_or_eq_of_le (Nat.le_of_lt_succ hi) with hlt | heq
        · have hget : ((psc ++ [(cur, nb)]).get ⟨i, by
              rw [List.length_append, List.length_singleton]; omega⟩) =
              psc.get ⟨i, hlt⟩ := List.get_append i hlt
          rw [hget]
          obtain ⟨qi, hqi, hle⟩ := hpsc.prefix_le i hlt
          have hknei : A.key (psc.get ⟨i, hlt⟩).2 ≠ A.key nb := by
            intro he
            exact havoidk (he ▸ List.mem_map.mpr ⟨_, List.get_mem psc _ _, rfl⟩)
          refine ⟨qi, ?_, ?_⟩
          · rw [relaxWrite_gScore, if_neg hknei]
            exact hqi
          · rw [List.take_append_of_le_length (by omega)]
            exact hle
        · subst heq
          have hget : ((psc ++ [(cur, nb)]).get ⟨psc.length, by
              rw [List.length_append, List.length_singleton]; omega⟩) = (cur, nb) := by
            simp
          rw [hget]
          refine ⟨t, ?_, ?_⟩
          · rw [relaxWrite_gScore, if_pos rfl]
          · rw [List.take_of_length_le (by simp)]
            rw [pairCost_append, hpsc.cost, htval]
    have htmem : t ∈ costSet A nodes :=
      goodPairs_cost_mem A nodes _ _ _ _ hgood'
    rw [h]
    constructor
    · constructor
      · intro v hv
        rw [relaxWrite_openSet, mem_sortOpen] at hv
        rcases List.mem_append.mp hv with h1 | h1
        · exact hT.open_mem v h1
        · rw [List.mem_singleton] at h1
          subst h1
          exact hnbmem
      · intro k q' hq'
        rw [relaxWrite_gScore] at hq'
        by_cases hk : k = A.key nb
        · rw [if_pos hk, Option.some.injEq] at hq'
          subst hq'
          subst hk
          exact ⟨psc ++ [(cur, nb)], hgood'⟩
        · rw [if_neg hk] at hq'
          obtain ⟨ps, hps⟩ := hT.gp k q' hq'
          exact ⟨ps, goodPairs_mono A nodes hdec hps⟩
    · right
      rw [gMeasure, gMeasure]
      apply Finset.sum_lt_sum
      · intro k _
        rw [keyWeight, keyWeight, relaxWrite_gScore]
        by_cases hk : k = A.key nb
        · rw [if_pos hk]
          cases hgk : st.gScore k with
          | none =>
            simp only
            exact Nat.le_succ_of_le (Finset.card_filter_le _ _)
          | some known =>
            simp only
            apply Finset.card_le_card
            intro c hc
            rw [Finset.mem_filter] at hc ⊢
            have hlt := himp known (by rw [← hk]; exact hgk)
            exact ⟨hc.1, lt_trans hc.2 hlt⟩
        · rw [if_neg hk]
      · refine ⟨A.key nb, Finset.mem_image_of_mem _ hnbmem, ?_⟩
        rw [keyWeight, keyWeight, relaxWrite_gScore, if_pos rfl]
        cases hgk : st.gScore (A.key nb) with
        | none =>
          simp only
          exact Nat.lt_succ_of_le (Finset.card_filter_le _ _)
        | some known =>
          simp only
          apply Finset.card_lt_card
          rw [Finset.ssubset_iff_of_subset]
          · refine ⟨t, ?_, ?_⟩
            · rw [Finset.mem_filter]
              exact ⟨htmem, himp known hgk⟩
            · rw [Finset.mem_filter]
              intro hc
              exact absurd hc.2 (lt_irrefl t)
          · intro c hc
            rw [Finset.mem_filter] at hc ⊢
            exact ⟨hc.1, lt_trans hc.2 (himp known hgk)⟩

/-- Helper: an edge path extends along an edge of its endpoint. -/
theorem epath_append (A : AStarArgs V K) {s z x : V} {p : List V}
    (hp : EPath A s z p) (hx : x ∈ A.nbrs z) : EPath A s x (p ++ [x]) := by
  induction hp with
  | single v => exact EPath.cons hx (EPath.single x)
  | cons he _ ih => exact EPath.cons he (ih hx)

/-- Helper: a full expansion preserves the termination invariant, and
either leaves the state unchanged or strictly decreases the measure. -/
theorem termInv_expand (A : AStarArgs V K) (nodes : Finset V)
    (hw : ∀ u v : V, 0 ≤ A.dist u v)
    (hclosed : ∀ u ∈ nodes, ∀ v ∈ A.nbrs u, v ∈ nodes) (cur : V)
    (st : AState V K) (hC : CoreInv A st) (hT : TermInv A nodes st)
    (hcurmem : cur ∈ nodes) (hcurg : (st.gScore (A.key cur)).isSome)
    (hcurch : ∃ l, ChainTo A st.cameFrom cur l) :
    TermInv A nodes (expand A cur st) ∧
    (expand A cur st = st ∨
      gMeasure A nodes (expand A cur st) < gMeasure A nodes st) := by
  rw [expand]
  have main : ∀ L : List V, (∀ x ∈ L, x ∈ A.nbrs cur) → ∀ s, CoreInv A s →
      TermInv A nodes s → (s.gScore (A.key cur)).isSome →
      (∃ l, ChainTo A s.cameFrom cur l) →
      TermInv A nodes (L.foldl (relax A cur) s) ∧
      (L.foldl (relax A cur) s = s ∨
        gMeasure A nodes (L.foldl (relax A cur) s) < gMeasure A nodes s) := by
    intro L
    induction L with
    | nil =>
      intro _ s _ hTs _ _
      exact ⟨hTs, Or.inl rfl⟩
    | cons nb L ih =>
      intro hmem s hCs hTs hg hch
      have hnb := hmem nb (List.mem_cons_self _ _)
      obtain ⟨hC1, hg1, hch1⟩ := coreInv_relax A hw cur nb s hCs hg hch hnb
      obtain ⟨hT1, hm1⟩ :=
        termInv_relax A nodes hw hclosed cur nb s hCs hTs hcurmem hg hnb
      obtain ⟨hT2, hm2⟩ :=
        ih (fun x hx => hmem x (List.mem_cons_of_mem _ hx)) _ hC1 hT1 hg1 hch1
      rw [List.foldl_cons]
      refine ⟨hT2, ?_⟩
      rcases hm1 with he | hlt1
      · rw [he]
        rw [he] at hm2
        exact hm2
      · rcases hm2 with he2 | hlt2
        · rw [he2]
          exact Or.inr hlt1
        · exact Or.inr (lt_trans hlt2 hlt1)
  exact main (A.nbrs cur) (fun x hx => hx) st hC hT hcurg hcurch

/-- Helper: unfolding one loop iteration that pops a non-goal node. -/
theorem findPathLoop_succ_cons {R : Type} (A : AStarArgs V K)
    (recon : (K → Option V) → V → R) (n : Nat) (st : AState V K) (cur : V)
    (rest : List V) (hos : st.openSet = cur :: rest) (hg : cur ≠ A.goal) :
    findPathLoop A recon (n + 1) st =
      findPathLoop A recon n (expand A cur { st with openSet := rest }) := by
  simp [findPathLoop, hos, hg]

/-- Helper: the termination invariant holds at initialization when the
start node belongs to `nodes`. -/
theorem termInv_init (A : AStarArgs V K) (nodes : Finset V)
    (hstart : A.start ∈ nodes) : TermInv A nodes (initState A) := by
  constructor
  · intro v hv
    simp only [initState, List.mem_singleton] at hv
    subst hv
    exact hstart
  · intro k q hq
    simp only [initState] at hq
    by_cases hk : k = A.key A.start
    · rw [if_pos hk] at hq
      cases hq
      refine ⟨[], ⟨?_, ?_, ?_, ?_, ?_, ?_, ?_⟩⟩
      · intro pr hpr
        cases hpr
      · intro _
        exact hk
      · intro pr hpr
        cases hpr
      · exact List.nodup_nil
      · simp
      · rfl
      · intro i hi
        cases hi
    · rw [if_neg hk] at hq
      cases hq

/-- Helper: with the invariants in place, the `findPath` loop terminates:
some fuel makes it return a value. -/
theorem loop_terminates {R : Type} (A : AStarArgs V K) (nodes : Finset V)
    (recon : (K → Option V) → V → R) (hw : ∀ u v : V, 0 ≤ A.dist u v)
    (hclosed : ∀ u ∈ nodes, ∀ v ∈ A.nbrs u, v ∈ nodes) :
    ∀ st, CoreInv A st → TermInv A nodes st →
      ∃ n r, findPathLoop A recon n st = some r := by
  have main : ∀ (N : ℕ) (st : AState V K), gMeasure A nodes st < N →
      ∀ (L : ℕ), st.openSet.length < L → CoreInv A st → TermInv A nodes st →
      ∃ n r, findPathLoop A recon n st = some r := by
    intro N
    induction N with
    | zero =>
      intro st h
      exact absurd h (Nat.not_lt_zero _)
    | succ N ihN =>
      intro st hN L
      induction L generalizing st with
      | zero =>
        intro h
        exact absurd h (Nat.not_lt_zero _)
      | succ L ihL =>
        intro hL hC hT
        cases hos : st.openSet with
        | nil => exact ⟨1, .noPath, by simp [findPathLoop, hos]⟩
        | cons cur rest =>
          by_cases hg : cur = A.goal
          · exact ⟨1, .path (recon st.cameFrom cur), by simp [findPathLoop, hos, hg]⟩
          · have hcmem : cur ∈ st.openSet := by
              rw [hos]
              exact List.mem_cons_self _ _
            have hstep : Step A st (expand A cur { st with openSet := rest }) :=
              ⟨cur, rest, hos, hg, rfl⟩
            have hC' := coreInv_step A hw hstep hC
            have hC1 : CoreInv A { st with openSet := rest } :=
              coreInv_pop A st hC cur rest hos
            have hT1 : TermInv A nodes { st with openSet := rest } :=
              ⟨fun v hv => hT.open_mem v (by rw [hos]; exact List.mem_cons_of_mem _ hv),
               hT.gp⟩
            obtain ⟨hT', hm⟩ := termInv_expand A nodes hw hclosed cur _ hC1 hT1
              (hT.open_mem cur hcmem) (hC.open_g cur hcmem) (hC.open_chain cur hcmem)
            rcases hm with he | hlt
            · have hlen : (expand A cur { st with openSet := rest }).openSet.length < L := by
                rw [he]
                have h2 : st.openSet.length < L + 1 := hL
                rw [hos] at h2
                simpa using Nat.lt_of_succ_lt_succ h2
              have hNm : gMeasure A nodes (expand A cur { st with openSet := rest }) < N + 1 := by
                rw [he]
                exact hN
              obtain ⟨n, r, hr⟩ := ihL _ hNm hlen hC' hT'
              refine ⟨n + 1, r, ?_⟩
              rw [findPathLoop_succ_cons A recon n st cur rest hos hg]
              exact hr
            · have hNm : gMeasure A nodes (expand A cur { st with openSet := rest }) < N := by
                have hle : gMeasure A nodes st ≤ N := Nat.lt_succ_iff.mp hN
                exact Nat.lt_of_lt_of_le hlt hle
              obtain ⟨n, r, hr⟩ := ihN _ hNm
                ((expand A cur { st with openSet := rest }).openSet.length + 1)
                (Nat.lt_succ_self _) hC' hT'
              refine ⟨n + 1, r, ?_⟩
              rw [findPathLoop_succ_cons A recon n st cur rest hos hg]
              exact hr
  intro st hC hT
  exact main (gMeasure A nodes st + 1) st (Nat.lt_succ_self _)
    (st.openSet.length + 1) (Nat.lt_succ_self _) hC hT

/-- Helper: one relaxation preserves open-set reachability from the start. -/
theorem reachInv_relax (A : AStarArgs V K) (cur nb : V) (st : AState V K)
    (hR : ReachInv A st) (hp : ∃ p, EPath A A.start cur p)
    (hnb : nb ∈ A.nbrs cur) : ReachInv A (relax A cur st nb) := by
  rcases relax_cases A cur nb st with h | ⟨_, h⟩ <;> rw [h]
  · exact hR
  · intro v hv
    rw [relaxWrite_openSet, mem_sortOpen] at hv
    rcases List.mem_append.mp hv with h1 | h1
    · exact hR v h1
    · rw [List.mem_singleton] at h1
      subst h1
      obtain ⟨p, hp'⟩ := hp
      exact ⟨p ++ [v], epath_append A hp' hnb⟩

/-- Helper: a loop iteration preserves open-set reachability. -/
theorem reachInv_step (A : AStarArgs V K) {st st' : AState V K}
    (h : Step A st st') (hR : ReachInv A st) : ReachInv A st' := by
  obtain ⟨cur, rest, hos, _, rfl⟩ := h
  have hcur : ∃ p, EPath A A.start cur p :=
    hR cur (by rw [hos]; exact List.mem_cons_self _ _)
  rw [expand]
  have main : ∀ L : List V, (∀ x ∈ L, x ∈ A.nbrs cur) → ∀ s, ReachInv A s →
      ReachInv A (L.foldl (relax A cur) s) := by
    intro L
    induction L with
    | nil =>
      intro _ s hs
      exact hs
    | cons nb L ih =>
      intro hmem s hs
      rw [List.foldl_cons]
      exact ih (fun x hx => hmem x (List.mem_cons_of_mem _ hx)) _
        (reachInv_relax A cur nb s hs hcur (hmem nb (List.mem_cons_self _ _)))
  refine main (A.nbrs cur) (fun x hx => hx) _ ?_
  intro v hv
  exact hR v (by rw [hos]; exact List.mem_cons_of_mem _ hv)

/-- Helper: when the goal is unreachable, no amount of fuel can make the
loop return anything but the no-path sentinel. -/
theorem findPathLoop_noPath {R : Type} (A : AStarArgs V K)
    (recon : (K → Option V) → V → R)
    (hunreach : ¬ ∃ p, EPath A A.start A.goal p) :
    ∀ (n : Nat) (st : AState V K) (r : FindPathResult R), ReachInv A st →
      findPathLoop A recon n st = some r → r = .noPath := by
  intro n
  induction n with
  | zero =>
    intro st r _ h
    simp [findPathLoop] at h
  | succ n ih =>
    intro st r hR h
    cases hos : st.openSet with
    | nil =>
      simp [findPathLoop, hos] at h
      exact h.symm
    | cons cur rest =>
      by_cases hg : cur = A.goal
      · exfalso
        obtain ⟨p, hp⟩ := hR cur (by rw [hos]; exact List.mem_cons_self _ _)
        exact hunreach ⟨p, hg ▸ hp⟩
      · rw [findPathLoop_succ_cons A recon n st cur rest hos hg] at h
        exact ih _ r (reachInv_step A ⟨cur, rest, hos, hg, rfl⟩ hR) h

/-- C3: for a (finite, closed) graph in which the goal is not reachable
from the start, `findPath` terminates and returns the `noPath` sentinel
(`false`) — a value distinct from every `path` result (in particular from
an empty-but-present path), never a raised error — for any reconstruction
strategy. -/
theorem findPath_unreachable_noPath {R : Type} (A : AStarArgs V K)
    (recon : (K → Option V) → V → R) (nodes : Finset V)
    (hw : ∀ u v : V, 0 ≤ A.dist u v) (hstart : A.start ∈ nodes)
    (hclosed : ∀ u ∈ nodes, ∀ v ∈ A.nbrs u, v ∈ nodes)
    (hunreach : ¬ ∃ p, EPath A A.start A.goal p) :
    (∃ n, findPath A recon n = some FindPathResult.noPath) ∧
    ∀ x : R, (FindPathResult.noPath : FindPathResult R) ≠ FindPathResult.path x := by
  constructor
  · obtain ⟨n, r, hr⟩ := loop_terminates A nodes recon hw hclosed (initState A)
      (coreInv_init A) (termInv_init A nodes hstart)
    have hinit : ReachInv A (initState A) := by
      intro v hv
      simp only [initState, List.mem_singleton] at hv
      subst hv
      exact ⟨[A.start], EPath.single _⟩
    have hnp := findPathLoop_noPath A recon hunreach n (initState A) r hinit hr
    subst hnp
    exact ⟨n, hr⟩
  · intro x h
    exact FindPathResult.noConfusion h

/-- Witness for C3 on the concrete two-node disconnected graph. -/
theorem findPath_unreachable_noPath_witness :
    (∃ n, findPath exDisconnected (fun _ _ => (0 : ℕ)) n =
      some FindPathResult.noPath) ∧
    ∀ x : ℕ, (FindPathResult.noPath : FindPathResult ℕ) ≠ FindPathResult.path x := by
  refine findPath_unreachable_noPath exDisconnected _ {0, 1} (fun _ _ => le_refl 0)
    (by decide) ?_ ?_
  · intro u hu v hv
    exact absurd hv (List.not_mem_nil v)
  · rintro ⟨p, hp⟩
    cases hp with
    | cons hv _ => exact absurd hv (List.not_mem_nil _)

/-- Helper: the cost of a two-or-more-node list. -/
theorem pathCost_cons_cons (A : AStarArgs V K) (u v : V) (l : List V) :
    pathCost A (u :: v :: l) = A.dist u v + pathCost A (v :: l) := rfl

/-- Helper: path costs are non-negative for a non-negative distance. -/
theorem pathCost_nonneg (A : AStarArgs V K) (hw : ∀ u v : V, 0 ≤ A.dist u v) :
    ∀ l : List V, 0 ≤ pathCost A l := by
  intro l
  induction l with
  | nil => exact le_refl 0
  | cons x xs ih =>
    cases xs with
    | nil => exact le_refl 0
    | cons y m =>
      rw [pathCost_cons_cons]
      have := hw x y
      linarith

/-- Helper: appending a node adds the edge cost from the old last node. -/
theorem pathCost_append_last (A : AStarArgs V K) :
    ∀ (p : List V) (z n : V), p.getLast? = some z →
      pathCost A (p ++ [n]) = pathCost A p + A.dist z n := by
  intro p
  induction p with
  | nil =>
    intro z n h
    cases h
  | cons x xs ih =>
    intro z n h
    cases xs with
    | nil =>
      rw [List.getLast?_singleton, Option.some.injEq] at h
      subst h
      show pathCost A [x, n] = pathCost A [x] + A.dist x n
      rw [pathCost_cons_cons]
      show A.dist x n + 0 = 0 + A.dist x n
      ring
    | cons y m =>
      have h' : (y :: m).getLast? = some z := by
        rw [List.getLast?_cons_cons] at h
        exact h
      show pathCost A (x :: ((y :: m) ++ [n])) = pathCost A (x :: y :: m) + A.dist z n
      rw [show (x :: ((y :: m) ++ [n])) = x :: y :: (m ++ [n]) from rfl]
      rw [pathCost_cons_cons, pathCost_cons_cons]
      rw [show (y :: (m ++ [n])) = (y :: m) ++ [n] from rfl]
      rw [ih z n h']
      ring

/-- Helper: the one-element prefix costs nothing. -/
theorem pathCost_take_one (A : AStarArgs V K) (l : List V) :
    pathCost A (l.take 1) = 0 := by
  cases l with
  | nil => rfl
  | cons x xs =>
    cases xs <;> rfl

/-- Helper: the cost splits at any index into prefix-through-the-index plus
suffix-from-the-index. -/
theorem pathCost_take_drop (A : AStarArgs V K) :
    ∀ (j : Nat) (p : List V), j < p.length →
      pathCost A p = pathCost A (p.take (j + 1)) + pathCost A (p.drop j) := by
  intro j
  induction j with
  | zero =>
    intro p _
    rw [pathCost_take_one, List.drop_zero]
    ring
  | succ j ih =>
    intro p hp
    cases p with
    | nil => cases hp
    | cons x xs =>
      have hj : j < xs.length := by
        simpa using Nat.lt_of_succ_lt_succ hp
      cases xs with
      | nil => cases hj
      | cons y m =>
        show pathCost A (x :: y :: m) =
          pathCost A (x :: (y :: m).take (j + 1)) + pathCost A ((y :: m).drop j)
        rw [pathCost_cons_cons]
        have htake : (y :: m).take (j + 1) = y :: m.take j := rfl
        have hcons : pathCost A (x :: (y :: m).take (j + 1)) =
            A.dist x y + pathCost A ((y :: m).take (j + 1)) := by
          rw [htake]
          exact pathCost_cons_cons A x y _
        rw [hcons, ih (y :: m) hj]
        ring

/-- Helper: a through-the-index prefix never costs more than the whole path. -/
theorem pathCost_take_le (A : AStarArgs V K) (hw : ∀ u v : V, 0 ≤ A.dist u v)
    (j : Nat) (p : List V) (hj : j < p.length) :
    pathCost A (p.take (j + 1)) ≤ pathCost A p := by
  rw [pathCost_take_drop A j p hj]
  have := pathCost_nonneg A hw (p.drop j)
  linarith

/-- Helper: an edge path is nonempty. -/
theorem epath_ne_nil (A : AStarArgs V K) {s z : V} {p : List V}
    (h : EPath A s z p) : p ≠ [] := by
  cases h <;> exact List.cons_ne_nil _ _

/-- Helper: an edge path starts at its source. -/
theorem epath_get_zero (A : AStarArgs V K) {s z : V} {p : List V}
    (h : EPath A s z p) (h0 : 0 < p.length) : p.get ⟨0, h0⟩ = s := by
  cases h <;> rfl

/-- Helper: an edge path ends at its target. -/
theorem epath_getLast (A : AStarArgs V K) {s z : V} {p : List V}
    (h : EPath A s z p) : p.getLast? = some z := by
  induction h with
  | single v => rfl
  | cons he hch ih =>
    rw [List.getLast?_cons]
    rw [ih]
    cases hch <;> simp_all [List.getLast?_cons]

/-- Helper: consecutive nodes of an edge path are graph neighbors. -/
theorem epath_consecutive (A : AStarArgs V K) {s z : V} {p : List V}
    (h : EPath A s z p) :
    ∀ (j : Nat) (hj : j + 1 < p.length),
      p.get ⟨j + 1, hj⟩ ∈ A.nbrs (p.get ⟨j, Nat.lt_of_succ_lt hj⟩) := by
  induction h with
  | single v =>
    intro j hj
    exact absurd hj (by simp)
  | cons he hch ih =>
    intro j hj
    cases j with
    | zero =>
      rename_i u v z' l
      have h1 : 0 < l.length := List.length_pos.mpr (epath_ne_nil A hch)
      have : (u :: l).get ⟨1, hj⟩ = l.get ⟨0, h1⟩ := rfl
      rw [this, epath_get_zero A hch h1]
      exact he
    | succ j =>
      exact ih j (Nat.lt_of_succ_lt_succ hj)

/-- Helper: the suffix of an edge path from any index is an edge path from
the node at that index. -/
theorem epath_drop (A : AStarArgs V K) {s z : V} {p : List V}
    (h : EPath A s z p) :
    ∀ (j : Nat) (hj : j < p.length), EPath A (p.get ⟨j, hj⟩) z (p.drop j) := by
  induction h with
  | single v =>
    intro j hj
    have hj0 : j = 0 := by simpa using Nat.lt_one_iff.mp (by simpa using hj)
    subst hj0
    exact EPath.single v
  | cons he hch ih =>
    intro j hj
    cases j with
    | zero =>
      rename_i u v z' l
      exact EPath.cons he hch
    | succ j =>
      exact ih j (Nat.lt_of_succ_lt_succ hj)

/-- Helper: a relaxation never changes the g-score of the expanded node's
key (for non-negative distances). -/
theorem relax_g_cur_eq (A : AStarArgs V K) (hw : ∀ u v : V, 0 ≤ A.dist u v)
    (cur nb : V) (s : AState V K) {qc : ℚ}
    (hqc : s.gScore (A.key cur) = some qc) :
    (relax A cur s nb).gScore (A.key cur) = some qc := by
  rcases relax_cases A cur nb s with h | ⟨himp, h⟩
  · rw [h]
    exact hqc
  · rw [h, relaxWrite_gScore]
    have hne : A.key cur ≠ A.key nb := by
      intro he
      have h1 := himp qc (by rw [← he]; exact hqc)
      rw [hqc] at h1
      have h2 := hw cur nb
      simp only [Option.getD_some] at h1
      linarith
    rw [if_neg hne]
    exact hqc

/-- Helper: a whole relaxation fold never changes the g-score of the
expanded node's key. -/
theorem foldl_g_cur_eq (A : AStarArgs V K) (hw : ∀ u v : V, 0 ≤ A.dist u v)
    (cur : V) :
    ∀ (L : List V) (s : AState V K) {qc : ℚ},
      s.gScore (A.key cur) = some qc →
      (L.foldl (relax A cur) s).gScore (A.key cur) = some qc := by
  intro L
  induction L with
  | nil =>
    intro s qc hqc
    exact hqc
  | cons nb L ih =>
    intro s qc hqc
    exact ih _ (relax_g_cur_eq A hw cur nb s hqc)

/-- Helper: a relaxation fold never discards or increases a g-score. -/
theorem foldl_gScore_le (A : AStarArgs V K) (cur : V) :
    ∀ (L : List V) (s : AState V K) (k : K) (q : ℚ), s.gScore k = some q →
      ∃ q', (L.foldl (relax A cur) s).gScore k = some q' ∧ q' ≤ q := by
  intro L
  induction L with
  | nil =>
    intro s k q hq
    exact ⟨q, hq, le_refl q⟩
  | cons nb L ih =>
    intro s k q hq
    obtain ⟨q1, hq1, h1⟩ := relax_gScore_le A cur nb s k q hq
    obtain ⟨q', hq', h'⟩ := ih _ k q1 hq1
    exact ⟨q', hq', le_trans h' h1⟩

/-- Helper: a relaxation only grows the open set (as a membership set). -/
theorem relax_openSet_mono (A : AStarArgs V K) (cur nb : V) (s : AState V K)
    {v : V} (hv : v ∈ s.openSet) : v ∈ (relax A cur s nb).openSet := by
  rcases relax_cases A cur nb s with h | ⟨_, h⟩ <;> rw [h]
  · exact hv
  · rw [relaxWrite_openSet, mem_sortOpen]
    exact List.mem_append_left _ hv

/-- Helper: a relaxation fold only grows the open set. -/
theorem foldl_openSet_mono (A : AStarArgs V K) (cur : V) :
    ∀ (L : List V) (s : AState V K) {v : V}, v ∈ s.openSet →
      v ∈ (L.foldl (relax A cur) s).openSet := by
  intro L
  induction L with
  | nil =>
    intro s v hv
    exact hv
  | cons nb L ih =>
    intro s v hv
    exact ih _ (relax_openSet_mono A cur nb s hv)

/-- Helper: if a fold changes the g-score at some key, a node with that key
is in the final open set. -/
theorem foldl_write_or_pushed (A : AStarArgs V K) (cur : V) :
    ∀ (L : List V) (s : AState V K) (k : K),
      (L.foldl (relax A cur) s).gScore k ≠ s.gScore k →
      ∃ nb', nb' ∈ (L.foldl (relax A cur) s).openSet ∧ A.key nb' = k := by
  intro L
  induction L with
  | nil =>
    intro s k h
    exact absurd rfl h
  | cons nb L ih =>
    intro s k h
    rw [List.foldl_cons] at h ⊢
    by_cases hch : (relax A cur s nb).gScore k = s.gScore k
    · exact ih _ k (by rw [← hch] at h; exact h)
    · rcases relax_cases A cur nb s with he | ⟨_, he⟩
      · rw [he] at hch
        exact absurd rfl hch
      · rw [he, relaxWrite_gScore] at hch
        by_cases hk : k = A.key nb
        · refine ⟨nb, ?_, hk.symm⟩
          apply foldl_openSet_mono A cur L
          rw [he, relaxWrite_openSet, mem_sortOpen]
          exact List.mem_append_right _ (List.mem_singleton_self _)
        · rw [if_neg hk] at hch
          exact absurd rfl hch

/-- Helper: an unchanged relaxation means the neighbor's known g-score
already beat the tentative one. -/
theorem relax_eq_self_bound (A : AStarArgs V K) (cur nb : V) (s : AState V K)
    {qc : ℚ} (hqc : s.gScore (A.key cur) = some qc)
    (heq : relax A cur s nb = s) :
    ∃ known, s.gScore (A.key nb) = some known ∧ known ≤ qc + A.dist cur nb := by
  cases hgnb : s.gScore (A.key nb) with
  | none =>
    exfalso
    have h2 : relax A cur s nb = relaxWrite A cur s nb
        ((s.gScore (A.key cur)).getD 0 + A.dist cur nb) := by
      simp only [relax, hgnb]
    rw [heq] at h2
    have h3 := congrArg (fun st : AState V K => st.gScore (A.key nb)) h2
    simp only [relaxWrite_gScore, if_pos rfl] at h3
    rw [hgnb] at h3
    cases h3
  | some known =>
    refine ⟨known, rfl, ?_⟩
    by_cases hlt : (s.gScore (A.key cur)).getD 0 + A.dist cur nb < known
    · exfalso
      have h2 : relax A cur s nb = relaxWrite A cur s nb
          ((s.gScore (A.key cur)).getD 0 + A.dist cur nb) := by
        simp only [relax, hgnb]
        rw [if_pos hlt]
      rw [heq] at h2
      have h3 : s.gScore (A.key nb) =
          some ((s.gScore (A.key cur)).getD 0 + A.dist cur nb) := by
        conv_lhs => rw [h2]
        rw [relaxWrite_gScore, if_pos rfl]
      rw [hgnb, Option.some.injEq] at h3
      rw [h3] at hlt
      exact lt_irrefl _ hlt
    · rw [hqc] at hlt
      simp only [Option.getD_some] at hlt
      linarith

/-- Helper: after a fold over a neighbor list, every listed neighbor's
g-score is at most the expanded node's g-score plus the edge cost. -/
theorem foldl_relaxes (A : AStarArgs V K) (hw : ∀ u v : V, 0 ≤ A.dist u v)
    (cur : V) {qc : ℚ} :
    ∀ (L : List V) (s : AState V K), s.gScore (A.key cur) = some qc →
      ∀ u ∈ L, ∃ qu, (L.foldl (relax A cur) s).gScore (A.key u) = some qu ∧
        qu ≤ qc + A.dist cur u := by
  intro L
  induction L with
  | nil =>
    intro s _ u hu
    cases hu
  | cons nb L ih =>
    intro s hqc u hu
    have hqc1 : (relax A cur s nb).gScore (A.key cur) = some qc :=
      relax_g_cur_eq A hw cur nb s hqc
    rw [List.foldl_cons]
    rcases List.mem_cons.mp hu with rfl | hu
    · have hb : ∃ qnb, (relax A cur s u).gScore (A.key u) = some qnb ∧
          qnb ≤ qc + A.dist cur u := by
        rcases relax_cases A cur u s with he | ⟨_, he⟩
        · obtain ⟨known, hk, hkle⟩ := relax_eq_self_bound A cur u s hqc he
          rw [he]
          exact ⟨known, hk, hkle⟩
        · rw [he, relaxWrite_gScore, if_pos rfl]
          refine ⟨_, rfl, ?_⟩
          rw [hqc]
          simp only [Option.getD_some]
          exact le_refl _
      obtain ⟨qnb, hqnb, hle⟩ := hb
      obtain ⟨qu, hqu, hle'⟩ := foldl_gScore_le A cur L _ _ _ hqnb
      exact ⟨qu, hqu, le_trans hle' hle⟩
    · exact ih _ hqc1 u hu

/-- Helper: a relaxation preserves the frontier invariants (with an
injective key function). -/
theorem frontInv_relax (A : AStarArgs V K)
    (hinj : ∀ u v : V, A.key u = A.key v → u = v) (cur nb : V)
    (s : AState V K) (hF : FrontInv A s) : FrontInv A (relax A cur s nb) := by
  rcases relax_cases A cur nb s with h | ⟨himp, h⟩
  · rw [h]
    exact hF
  · rw [h]
    set t := (s.gScore (A.key cur)).getD 0 + A.dist cur nb with ht
    constructor
    · rw [relaxWrite_openSet]
      exact List.sorted_insertionSort _ _
    · intro k q hq
      rw [relaxWrite_gScore] at hq
      by_cases hk : k = A.key nb
      · rw [if_pos hk, Option.some.injEq] at hq
        refine ⟨nb, hk.symm, ?_⟩
        have : (relaxWrite A cur s nb t).fScore k =
            some (t + A.dist nb A.goal) := by
          show (if k = A.key nb then some (t + A.dist nb A.goal) else s.fScore k) =
            some (t + A.dist nb A.goal)
          rw [if_pos hk]
        rw [this, hq]
      · rw [if_neg hk] at hq
        obtain ⟨v, hkv, hf⟩ := hF.fg k q hq
        refine ⟨v, hkv, ?_⟩
        show (if k = A.key nb then some (t + A.dist nb A.goal) else s.fScore k) =
          some (q + A.dist v A.goal)
        rw [if_neg hk]
        exact hf
    · intro hg
      rw [relaxWrite_openSet, mem_sortOpen]
      rw [relaxWrite_gScore] at hg
      by_cases hk : A.key A.goal = A.key nb
      · have : nb = A.goal := hinj nb A.goal hk.symm
        subst this
        exact List.mem_append_right _ (List.mem_singleton_self _)
      · rw [if_neg hk] at hg
        exact List.mem_append_left _ (hF.goal_open hg)

/-- Helper: a loop iteration preserves the frontier invariants. -/
theorem frontInv_step (A : AStarArgs V K)
    (hinj : ∀ u v : V, A.key u = A.key v → u = v) {st st' : AState V K}
    (h : Step A st st') (hF : FrontInv A st) : FrontInv A st' := by
  obtain ⟨cur, rest, hos, hg, rfl⟩ := h
  have hF1 : FrontInv A { st with openSet := rest } := by
    constructor
    · have := hF.sorted
      rw [hos] at this
      exact this.of_cons
    · exact hF.fg
    · intro hgo
      have hmem := hF.goal_open hgo
      rw [hos] at hmem
      rcases List.mem_cons.mp hmem with he | hmem'
      · exact absurd he.symm hg
      · exact hmem'
  rw [expand]
  have main : ∀ (L : List V) (s : AState V K), FrontInv A s →
      FrontInv A (L.foldl (relax A cur) s) := by
    intro L
    induction L with
    | nil =>
      intro s hs
      exact hs
    | cons nb L ih =>
      intro s hs
      exact ih _ (frontInv_relax A hinj cur nb s hs)
  exact main _ _ hF1

/-- Helper: a loop iteration preserves the closed-node invariant. -/
theorem closedInv_step (A : AStarArgs V K) (hw : ∀ u v : V, 0 ≤ A.dist u v)
    (hinj : ∀ u v : V, A.key u = A.key v → u = v) {st st' : AState V K}
    (h : Step A st st') (hC : CoreInv A st) (hCl : ClosedInv A st) :
    ClosedInv A st' := by
  obtain ⟨cur, rest, hos, _, rfl⟩ := h
  have hcmem : cur ∈ st.openSet := by
    rw [hos]
    exact List.mem_cons_self _ _
  obtain ⟨qc, hqc⟩ := Option.isSome_iff_exists.mp (hC.open_g cur hcmem)
  have hqc1 : ({ st with openSet := rest } : AState V K).gScore (A.key cur) = some qc := hqc
  constructor
  intro v hvg hvopen u hu
  rw [expand] at hvg hvopen ⊢
  by_cases hvc : v = cur
  · subst hvc
    obtain ⟨qu, hqu, hle⟩ :=
      foldl_relaxes A hw v (A.nbrs v) { st with openSet := rest } hqc1 u hu
    exact ⟨qc, qu, foldl_g_cur_eq A hw v (A.nbrs v) _ hqc1, hqu, hle⟩
  · have hvrest : v ∉ rest := by
      intro hmem
      exact hvopen (foldl_openSet_mono A cur (A.nbrs cur) _ hmem)
    have hvold : v ∉ st.openSet := by
      rw [hos]
      intro hmem
      rcases List.mem_cons.mp hmem with he | hmem'
      · exact hvc he
      · exact hvrest hmem'
    by_cases hwr : ((A.nbrs cur).foldl (relax A cur)
        { st with openSet := rest }).gScore (A.key v) = st.gScore (A.key v)
    · have hold : (st.gScore (A.key v)).isSome := by
        rw [← hwr]
        exact hvg
      obtain ⟨qv, qu, hqv, hqu, hb⟩ := hCl.closed v hold hvold u hu
      obtain ⟨qu', hqu', hle'⟩ :=
        foldl_gScore_le A cur (A.nbrs cur) { st with openSet := rest } _ _ hqu
      refine ⟨qv, qu', ?_, hqu', ?_⟩
      · rw [hwr]
        exact hqv
      · linarith
    · exfalso
      obtain ⟨nb', hmem', hk'⟩ :=
        foldl_write_or_pushed A cur (A.nbrs cur) { st with openSet := rest } _ hwr
      have : nb' = v := hinj nb' v hk'
      subst this
      exact hvopen hmem'

/-- Helper: the frontier invariants hold at initialization. -/
theorem frontInv_init (A : AStarArgs V K)
    (hinj : ∀ u v : V, A.key u = A.key v → u = v) :
    FrontInv A (initState A) := by
  constructor
  · exact List.sorted_singleton _
  · intro k q hq
    simp only [initState] at hq ⊢
    by_cases hk : k = A.key A.start
    · rw [if_pos hk] at hq ⊢
      cases hq
      refine ⟨A.start, hk.symm, ?_⟩
      rw [zero_add]
    · rw [if_neg hk] at hq
      cases hq
  · intro hg
    simp only [initState] at hg ⊢
    by_cases hk : A.key A.goal = A.key A.start
    · have : A.goal = A.start := hinj _ _ hk
      rw [this]
      exact List.mem_singleton_self _
    · rw [if_neg hk] at hg
      cases hg

/-- Helper: the closed-node invariant holds at initialization. -/
theorem closedInv_init (A : AStarArgs V K)
    (hinj : ∀ u v : V, A.key u = A.key v → u = v) :
    ClosedInv A (initState A) := by
  constructor
  intro v hvg hvopen _ _
  exfalso
  simp only [initState] at hvg
  by_cases hk : A.key v = A.key A.start
  · have : v = A.start := hinj _ _ hk
    subst this
    exact hvopen (List.mem_singleton_self _)
  · rw [if_neg hk] at hvg
    cases hvg

/-- Helper: the frontier and closed-node invariants hold at every
reachable state. -/
theorem frontClosed_reachable (A : AStarArgs V K)
    (hw : ∀ u v : V, 0 ≤ A.dist u v)
    (hinj : ∀ u v : V, A.key u = A.key v → u = v) {st : AState V K}
    (h : ReachableState A st) : FrontInv A st ∧ ClosedInv A st := by
  induction h with
  | refl => exact ⟨frontInv_init A hinj, closedInv_init A hinj⟩
  | tail hab hbc ih =>
    have hCb := coreInv_reachable A hw hab
    exact ⟨frontInv_step A hinj hbc ih.1, closedInv_step A hw hinj hbc hCb ih.2⟩

/-- Helper: extending a prefix by one node adds the connecting edge cost. -/
theorem pathCost_take_succ (A : AStarArgs V K) (p : List V) (j : Nat)
    (hj : j + 1 < p.length) :
    pathCost A (p.take (j + 2)) =
      pathCost A (p.take (j + 1)) +
        A.dist (p.get ⟨j, Nat.lt_of_succ_lt hj⟩) (p.get ⟨j + 1, hj⟩) := by
  have h1 : p.take (j + 2) = p.take (j + 1) ++ [p.get ⟨j + 1, hj⟩] := by
    rw [List.take_succ]
    congr 1
    rw [List.getElem?_eq_getElem hj]
    rfl
  have h2 : (p.take (j + 1)).getLast? =
      some (p.get ⟨j, Nat.lt_of_succ_lt hj⟩) := by
    rw [List.take_succ]
    rw [List.getElem?_eq_getElem (Nat.lt_of_succ_lt hj)]
    show (p.take j ++ [p.get ⟨j, Nat.lt_of_succ_lt hj⟩]).getLast? = _
    rw [List.getLast?_concat]
  rw [h1, pathCost_append_last A _ _ _ h2]

/-- Helper: the node at the final index of an edge path is its target. -/
theorem epath_get_last_eq (A : AStarArgs V K) {s z : V} {p : List V}
    (h : EPath A s z p) (hj : p.length - 1 < p.length) :
    p.get ⟨p.length - 1, hj⟩ = z := by
  have hlast := epath_getLast A h
  rw [List.getLast?_eq_getElem? p, List.getElem?_eq_getElem hj] at hlast
  exact Option.some_injective V hlast

/-- Helper (path climbing): for any edge path from the start, either its
endpoint's g-score is already at most the path's cost, or some open-set
node sits on the path with a g-score at most its prefix cost. -/
theorem climb (A : AStarArgs V K) (hw : ∀ u v : V, 0 ≤ A.dist u v)
    (st : AState V K) (hC : CoreInv A st) (hCl : ClosedInv A st)
    {z : V} {p : List V} (hp : EPath A A.start z p) :
    (∃ qz, st.gScore (A.key z) = some qz ∧ qz ≤ pathCost A p) ∨
    (∃ v, v ∈ st.openSet ∧ ∃ (j : Nat) (hj : j < p.length) (qv : ℚ),
      v = p.get ⟨j, hj⟩ ∧ st.gScore (A.key v) = some qv ∧
      qv ≤ pathCost A (p.take (j + 1))) := by
  have main : ∀ (d j : Nat) (hj : j < p.length), p.length - 1 - j ≤ d →
      ∀ qj, st.gScore (A.key (p.get ⟨j, hj⟩)) = some qj →
      qj ≤ pathCost A (p.take (j + 1)) →
      (∃ qz, st.gScore (A.key z) = some qz ∧ qz ≤ pathCost A p) ∨
      (∃ v, v ∈ st.openSet ∧ ∃ (j' : Nat) (hj' : j' < p.length) (qv : ℚ),
        v = p.get ⟨j', hj'⟩ ∧ st.gScore (A.key v) = some qv ∧
        qv ≤ pathCost A (p.take (j' + 1))) := by
    intro d
    induction d with
    | zero =>
      intro j hj hd qj hqj hle
      by_cases hop : p.get ⟨j, hj⟩ ∈ st.openSet
      · exact Or.inr ⟨_, hop, j, hj, qj, rfl, hqj, hle⟩
      · left
        have hjl : j = p.length - 1 := by omega
        have hz : p.get ⟨j, hj⟩ = z := by
          subst hjl
          exact epath_get_last_eq A hp hj
        refine ⟨qj, by rw [← hz]; exact hqj, ?_⟩
        have hj1 : j + 1 = p.length := by omega
        rw [hj1, List.take_length] at hle
        exact hle
    | succ d ihd =>
      intro j hj hd qj hqj hle
      by_cases hop : p.get ⟨j, hj⟩ ∈ st.openSet
      · exact Or.inr ⟨_, hop, j, hj, qj, rfl, hqj, hle⟩
      · by_cases hjl : j + 1 < p.length
        · have hnbr := epath_consecutive A hp j hjl
          obtain ⟨qv, qu, hqv, hqu, hb⟩ :=
            hCl.closed (p.get ⟨j, Nat.lt_of_succ_lt hjl⟩)
              (by rw [hqj]; rfl) hop _ hnbr
          have hqveq : qv = qj := by
            rw [hqj, Option.some.injEq] at hqv
            exact hqv.symm
          apply ihd (j + 1) hjl (by omega) qu hqu
          rw [show j + 1 + 1 = j + 2 from rfl, pathCost_take_succ A p j hjl]
          rw [hqveq] at hb
          linarith
        · left
          have hjeq : j = p.length - 1 := by omega
          have hz : p.get ⟨j, hj⟩ = z := by
            subst hjeq
            exact epath_get_last_eq A hp hj
          refine ⟨qj, by rw [← hz]; exact hqj, ?_⟩
          have hj1 : j + 1 = p.length := by omega
          rw [hj1, List.take_length] at hle
          exact hle
  have h0 : 0 < p.length := List.length_pos.mpr (epath_ne_nil A hp)
  have hstart0 : p.get ⟨0, h0⟩ = A.start := epath_get_zero A hp h0
  apply main (p.length - 1) 0 h0 (by omega) 0
  · rw [hstart0]
    exact hC.g_start
  · rw [pathCost_take_one]

/-- Helper: a came-from chain, reversed, is an edge path from the start
whose cost is at most the g-score of the chain's head. -/
theorem chainTo_cost (A : AStarArgs V K) (hw : ∀ u v : V, 0 ≤ A.dist u v)
    (hinj : ∀ u v : V, A.key u = A.key v → u = v) (st : AState V K)
    (hC : CoreInv A st) {v : V} {l : List V}
    (h : ChainTo A st.cameFrom v l) :
    ∃ qv, st.gScore (A.key v) = some qv ∧ EPath A A.start v l.reverse ∧
      pathCost A l.reverse ≤ qv := by
  induction h with
  | base =>
    refine ⟨0, hC.g_start, ?_, ?_⟩
    · show EPath A A.start A.start [A.start]
      exact EPath.single _
    · show pathCost A [A.start] ≤ 0
      exact le_refl 0
  | step hcf hch ih =>
    rename_i v' c l'
    obtain ⟨q, qc', hq, hqc', nb, hknb, hmemnb, hle⟩ := hC.cf_g _ _ hcf
    obtain ⟨qc, hqc, hep, hcost⟩ := ih
    have hqceq : qc = qc' := by
      rw [hqc', Option.some.injEq] at hqc
      exact hqc.symm
    have hnbv : nb = v' := hinj nb v' hknb
    subst hnbv
    refine ⟨q, hq, ?_, ?_⟩
    · rw [List.reverse_cons]
      exact epath_append A hep hmemnb
    · rw [List.reverse_cons,
        pathCost_append_last A _ _ _ (epath_getLast A hep)]
      rw [hqceq] at hcost
      linarith

/-- Helper: with the key function resolved, the default backward walk of
`reconstructPath` reproduces a came-from chain in start-to-goal order. -/
theorem reconstructPathAux_of_chain (A : AStarArgs V K)
    (cf : K → Option V) (hcfs : cf (A.key A.start) = none) {v : V}
    {l : List V} (h : ChainTo A cf v l) :
    ∀ fuel, l.length ≤ fuel →
      reconstructPathAux A.key cf fuel v = some l.reverse := by
  induction h with
  | base =>
    intro fuel hfuel
    cases fuel with
    | zero => cases hfuel
    | succ fuel =>
      rw [reconstructPathAux, hcfs]
      rfl
  | step hcf hch ih =>
    rename_i v' c l'
    intro fuel hfuel
    cases fuel with
    | zero => cases hfuel
    | succ fuel =>
      simp only [reconstructPathAux, hcf]
      rw [ih fuel (Nat.le_of_succ_le_succ hfuel)]
      rw [List.reverse_cons]
      rfl

/-- Helper: the observing loop and `findPathLoop` share control flow: the
loop's result is the observing loop's result with the reconstruction
applied at the goal. -/
theorem findPathLoop_eq_loopSt {R : Type} (A : AStarArgs V K)
    (recon : (K → Option V) → V → R) :
    ∀ (n : Nat) (st : AState V K),
      findPathLoop A recon n st = (findPathLoopSt A n st).map
        (fun o => match o with
          | none => FindPathResult.noPath
          | some s => FindPathResult.path (recon s.cameFrom A.goal)) := by
  intro n
  induction n with
  | zero =>
    intro st
    rfl
  | succ n ih =>
    intro st
    cases hos : st.openSet with
    | nil => simp [findPathLoop, findPathLoopSt, hos]
    | cons cur rest =>
      by_cases hg : cur = A.goal
      · subst hg
        simp [findPathLoop, findPathLoopSt, hos]
      · simp only [findPathLoop, findPathLoopSt, hos, if_neg hg]
        exact ih _

/-- Helper: a goal-state result of the observing loop is a reachable state
whose open set starts with the goal. -/
theorem loopSt_goalState (A : AStarArgs V K) :
    ∀ (n : Nat) (st : AState V K) (s' : AState V K),
      findPathLoopSt A n st = some (some s') →
      Relation.ReflTransGen (Step A) st s' ∧
      ∃ rest, s'.openSet = A.goal :: rest := by
  intro n
  induction n with
  | zero =>
    intro st s' h
    cases h
  | succ n ih =>
    intro st s' h
    cases hos : st.openSet with
    | nil =>
      simp only [findPathLoopSt, hos] at h
      cases Option.some.inj h
    | cons cur rest =>
      by_cases hg : cur = A.goal
      · simp only [findPathLoopSt, hos] at h
        rw [if_pos hg] at h
        cases h
        exact ⟨Relation.ReflTransGen.refl, rest, by rw [hos, hg]⟩
      · simp only [findPathLoopSt, hos] at h
        rw [if_neg hg] at h
        obtain ⟨hrtg, hrest⟩ := ih _ _ h
        exact ⟨Relation.ReflTransGen.head ⟨cur, rest, hos, hg, rfl⟩ hrtg, hrest⟩

/-- Helper: an exhaustion result of the observing loop comes from a
reachable state with an empty open set. -/
theorem loopSt_exhausted (A : AStarArgs V K) :
    ∀ (n : Nat) (st : AState V K), findPathLoopSt A n st = some none →
      ∃ s', Relation.ReflTransGen (Step A) st s' ∧ s'.openSet = [] := by
  intro n
  induction n with
  | zero =>
    intro st h
    cases h
  | succ n ih =>
    intro st h
    cases hos : st.openSet with
    | nil => exact ⟨st, Relation.ReflTransGen.refl, hos⟩
    | cons cur rest =>
      by_cases hg : cur = A.goal
      · simp only [findPathLoopSt, hos] at h
        rw [if_pos hg] at h
        cases h
      · simp only [findPathLoopSt, hos] at h
        rw [if_neg hg] at h
        obtain ⟨s', hrtg, hempty⟩ := ih _ h
        exact ⟨s', Relation.ReflTransGen.head ⟨cur, rest, hos, hg, rfl⟩ hrtg, hempty⟩

/-- C1: on a finite closed graph with an injective key function, a
non-negative distance function admissible as a heuristic, and a goal
reachable from the start, `findPath` — reconstructing by walking the
came-from chain (the default `reconstructPath` with its free `computeKey`
identifier bound to the supplied key function) — returns, for some fuel, a
path from start to goal whose total cost is minimal over all paths. -/
theorem findPath_optimal (A : AStarArgs V K) (nodes : Finset V)
    (hw : ∀ u v : V, 0 ≤ A.dist u v)
    (hinj : ∀ u v : V, A.key u = A.key v → u = v)
    (hstart : A.start ∈ nodes)
    (hclosed : ∀ u ∈ nodes, ∀ v ∈ A.nbrs u, v ∈ nodes)
    (hadm : ∀ (v : V) (p : List V), EPath A v A.goal p →
      A.dist v A.goal ≤ pathCost A p)
    (hreach : ∃ p, EPath A A.start A.goal p) :
    ∃ (fuel fuel2 : Nat) (p : List V),
      findPath A (fun cf cur => reconstructPathAux A.key cf fuel2 cur) fuel =
        some (.path (some p)) ∧
      EPath A A.start A.goal p ∧
      ∀ p', EPath A A.start A.goal p' → pathCost A p ≤ pathCost A p' := by
  obtain ⟨n, r, hr⟩ := loop_terminates A nodes (fun _ _ => (0 : ℕ)) hw hclosed
    (initState A) (coreInv_init A) (termInv_init A nodes hstart)
  rw [findPathLoop_eq_loopSt] at hr
  obtain ⟨o, ho, -⟩ := Option.map_eq_some'.mp hr
  cases o with
  | none =>
    exfalso
    obtain ⟨s', hrtg, hempty⟩ := loopSt_exhausted A n (initState A) ho
    have hreach' : ReachableState A s' := hrtg
    have hC' := coreInv_reachable A hw hreach'
    obtain ⟨hF', hCl'⟩ := frontClosed_reachable A hw hinj hreach'
    obtain ⟨p0, hp0⟩ := hreach
    rcases climb A hw s' hC' hCl' hp0 with ⟨qz, hqz, -⟩ | ⟨v, hv, -⟩
    · have hmem := hF'.goal_open (by rw [hqz]; rfl)
      rw [hempty] at hmem
      cases hmem
    · rw [hempty] at hv
      cases hv
  | some s' =>
    obtain ⟨hrtg, rest, hopen⟩ := loopSt_goalState A n (initState A) s' ho
    have hreach' : ReachableState A s' := hrtg
    have hC' := coreInv_reachable A hw hreach'
    obtain ⟨hF', hCl'⟩ := frontClosed_reachable A hw hinj hreach'
    have hgmem : A.goal ∈ s'.openSet := by
      rw [hopen]
      exact List.mem_cons_self _ _
    obtain ⟨qg, hqg⟩ := Option.isSome_iff_exists.mp (hC'.open_g A.goal hgmem)
    obtain ⟨l, hl⟩ := hC'.open_chain A.goal hgmem
    obtain ⟨qg2, hqg2, hep, hcost⟩ := chainTo_cost A hw hinj s' hC' hl
    have hqg2eq : qg2 = qg := by
      rw [hqg, Option.some.injEq] at hqg2
      exact hqg2.symm
    have hgoal0 : A.dist A.goal A.goal = 0 := by
      have h1 := hadm A.goal [A.goal] (EPath.single _)
      have h2 : pathCost A [A.goal] = 0 := rfl
      rw [h2] at h1
      have h3 := hw A.goal A.goal
      linarith
    have hfgoal : s'.fScore (A.key A.goal) = some qg := by
      obtain ⟨v0, hkv0, hf0⟩ := hF'.fg _ qg hqg
      have hv0 : v0 = A.goal := hinj v0 A.goal hkv0
      subst hv0
      rw [hf0, hgoal0, add_zero]
    have hmin : ∀ p', EPath A A.start A.goal p' → qg ≤ pathCost A p' := by
      intro p' hp'
      rcases climb A hw s' hC' hCl' hp' with ⟨qz, hqz, hle⟩ |
        ⟨v, hv, j, hj, qv, hveq, hqv, hqvle⟩
      · rw [hqg, Option.some.injEq] at hqz
        rw [hqz]
        exact hle
      · by_cases hvg : v = A.goal
        · subst hvg
          rw [hqg, Option.some.injEq] at hqv
          rw [hqv]
          exact le_trans hqvle (pathCost_take_le A hw j p' hj)
        · have hvrest : v ∈ rest := by
            rw [hopen] at hv
            rcases List.mem_cons.mp hv with he | h2
            · exact absurd he hvg
            · exact h2
          have hsorted := hF'.sorted
          rw [hopen] at hsorted
          have hle_f : openLE A s'.fScore A.goal v :=
            List.rel_of_sorted_cons hsorted v hvrest
          obtain ⟨v1, hkv1, hf1⟩ := hF'.fg _ qv hqv
          have hv1 : v1 = v := hinj v1 v hkv1
          rw [hv1] at hf1
          have h1 : fGet A s'.fScore A.goal = qg := by
            rw [fGet, hfgoal]
            rfl
          have h2 : fGet A s'.fScore v = qv + A.dist v A.goal := by
            rw [fGet, hf1]
            rfl
          have hq1 : qg ≤ qv + A.dist v A.goal := by
            rw [← h1, ← h2]
            exact hle_f
          have hdrop := epath_drop A hp' j hj
          rw [← hveq] at hdrop
          have hadm' := hadm v (p'.drop j) hdrop
          have hsplit := pathCost_take_drop A j p' hj
          linarith
    refine ⟨n, l.length, l.reverse, ?_, hep, ?_⟩
    · rw [findPath, findPathLoop_eq_loopSt, ho, Option.map_some']
      show some (FindPathResult.path
          (reconstructPathAux A.key s'.cameFrom l.length A.goal)) =
        some (FindPathResult.path (some l.reverse))
      rw [reconstructPathAux_of_chain A s'.cameFrom hC'.cf_start hl l.length
        (le_refl _)]
    · intro p' hp'
      have h1 : pathCost A l.reverse ≤ qg := by
        rw [← hqg2eq]
        exact hcost
      exact le_trans h1 (hmin p' hp')

/-- Witness for C1 on the concrete one-node graph (start = goal). -/
theorem findPath_optimal_witness :
    ∃ (fuel fuel2 : Nat) (p : List ℕ),
      findPath exNatArgs
          (fun cf cur => reconstructPathAux exNatArgs.key cf fuel2 cur) fuel =
        some (.path (some p)) ∧
      EPath exNatArgs exNatArgs.start exNatArgs.goal p ∧
      ∀ p', EPath exNatArgs exNatArgs.start exNatArgs.goal p' →
        pathCost exNatArgs p ≤ pathCost exNatArgs p' :=
  findPath_optimal exNatArgs {0} (fun _ _ => le_refl 0) (fun _ _ h => h)
    (by decide) (fun u _ v hv => absurd hv (List.not_mem_nil v))
    (fun _ p _ => pathCost_nonneg exNatArgs (fun _ _ => le_refl 0) p)
    ⟨[0], EPath.single 0⟩

/-- Witness for the amended C2 on the concrete two-node chain `a → b`. -/
theorem reconstructRenderablePath_chain_witness :
    ∃ l0, reconstructRenderableAux exGraphM exCameFrom 5 exB none = some l0 ∧
      [(⟨⟨"a", [1, 0], [("LA", "b")]⟩, some "LB"⟩ : RenderEntry),
       ⟨⟨"b", [3, 2], [("LB", "a")]⟩, none⟩] = l0.map (fun e =>
        { e with graphNode := { e.graphNode with pos := e.graphNode.pos.reverse } }) ∧
      l0.getLast? = some ⟨exB, none⟩ ∧
      ∀ i (e e' : RenderEntry), l0[i]? = some e → l0[i + 1]? = some e' →
        exCameFrom (computeKey e'.graphNode) = some e.graphNode ∧
        e.link = findLinkTo exGraphM e'.graphNode e.graphNode :=
  reconstructRenderablePath_chain exGraphM () exCameFrom 5 exB _ (by decide)

end VaarWeg
